import Mathlib

/-!
Verification of the Slack translation bot (src/index.js).

Strings are modelled as `List Char`; JavaScript string primitives used by the
source (split on newline, trim, startsWith, includes, global literal-regex
replace) are given executable definitions below, and each source function is
translated on top of them keeping its original name.
-/

/-- JS `String.prototype.trim` restricted to the ASCII whitespace actually
occurring in chat messages: drop leading and trailing whitespace characters. -/
def trimChars (l : List Char) : List Char :=
  ((l.dropWhile Char.isWhitespace).reverse.dropWhile Char.isWhitespace).reverse

/-- JS `text.split('\n')`. -/
def splitNl : List Char → List (List Char)
  | [] => [[]]
  | c :: cs =>
    match splitNl cs with
    | [] => [[c]]
    | h :: t => if c = '\n' then [] :: h :: t else (c :: h) :: t

/-- Join lines with a newline separator (inverse of `splitNl`). -/
def joinNl : List (List Char) → List Char
  | [] => []
  | [l] => l
  | l :: ls => l ++ '\n' :: joinNl ls

/-- The `【신규】` header marker. -/
def markerNew : List Char := "【신규】".data

/-- The `【수정】` header marker. -/
def markerEdit : List Char := "【수정】".data

/-- The `팀명:` label. -/
def labelTeam : List Char := "팀명:".data

/-- The `디자인 요청사항:` label. -/
def labelMain : List Char := "디자인 요청사항:".data

/-- The `이미지 요청사항:` label. -/
def labelDetail : List Char := "이미지 요청사항:".data

/-- Result record of `parseSections`. -/
structure Sections where
  team : List Char
  main : List Char
  detail : List Char
deriving DecidableEq, Repr

/-- The section cursor (`current` in the source, a string there). -/
inductive CurSec where
  | none
  | team
  | main
  | detail
deriving DecidableEq, Repr

/-- One loop iteration of `parseSections` (src/index.js lines 63-82):
skip header-marker lines, switch the cursor on a label line and seed the
field from the same line, append non-empty lines to the main/detail field
the cursor points to. -/
def parseStep (st : Sections × CurSec) (line : List Char) : Sections × CurSec :=
  let trimmed := trimChars line
  if trimmed = markerNew ∨ trimmed = markerEdit then st
  else if labelTeam <+: trimmed then
    ({ st.1 with team := trimChars (trimmed.drop labelTeam.length) }, CurSec.team)
  else if labelMain <+: trimmed then
    ({ st.1 with main := trimChars (trimmed.drop labelMain.length) }, CurSec.main)
  else if labelDetail <+: trimmed then
    ({ st.1 with detail := trimChars (trimmed.drop labelDetail.length) }, CurSec.detail)
  else if st.2 = CurSec.main ∧ trimmed ≠ [] then
    ({ st.1 with main := st.1.main ++ (if st.1.main ≠ [] then '\n' :: trimmed else trimmed) }, st.2)
  else if st.2 = CurSec.detail ∧ trimmed ≠ [] then
    ({ st.1 with detail := st.1.detail ++ (if st.1.detail ≠ [] then '\n' :: trimmed else trimmed) }, st.2)
  else st

/-- `parseSections` (src/index.js lines 58-84). -/
def parseSections (text : List Char) : Sections :=
  let st := (splitNl text).foldl parseStep (⟨[], [], []⟩, CurSec.none)
  { team := trimChars st.1.team, main := trimChars st.1.main, detail := trimChars st.1.detail }

/-- The form predicate (src/index.js line 230):
`team !== '' || main !== '' || detail !== ''`. -/
def isForm (text : List Char) : Bool :=
  let s := parseSections text
  s.team ≠ [] ∨ s.main ≠ [] ∨ s.detail ≠ []

/-- Modelled from the claim C2's words (not from the source): the same cursor
machine but appending subsequent non-empty lines to *whichever* section the
cursor points to, including the team section. -/
def parseStepClaimed (st : Sections × CurSec) (line : List Char) : Sections × CurSec :=
  let trimmed := trimChars line
  if trimmed = markerNew ∨ trimmed = markerEdit then st
  else if labelTeam <+: trimmed then
    ({ st.1 with team := trimChars (trimmed.drop labelTeam.length) }, CurSec.team)
  else if labelMain <+: trimmed then
    ({ st.1 with main := trimChars (trimmed.drop labelMain.length) }, CurSec.main)
  else if labelDetail <+: trimmed then
    ({ st.1 with detail := trimChars (trimmed.drop labelDetail.length) }, CurSec.detail)
  else if st.2 = CurSec.team ∧ trimmed ≠ [] then
    ({ st.1 with team := st.1.team ++ (if st.1.team ≠ [] then '\n' :: trimmed else trimmed) }, st.2)
  else if st.2 = CurSec.main ∧ trimmed ≠ [] then
    ({ st.1 with main := st.1.main ++ (if st.1.main ≠ [] then '\n' :: trimmed else trimmed) }, st.2)
  else if st.2 = CurSec.detail ∧ trimmed ≠ [] then
    ({ st.1 with detail := st.1.detail ++ (if st.1.detail ≠ [] then '\n' :: trimmed else trimmed) }, st.2)
  else st

/-- The claim-side parser built from `parseStepClaimed`. -/
def parseSectionsClaimed (text : List Char) : Sections :=
  let st := (splitNl text).foldl parseStepClaimed (⟨[], [], []⟩, CurSec.none)
  { team := trimChars st.1.team, main := trimChars st.1.main, detail := trimChars st.1.detail }

/-- Spec-style restatement of the parser as an explicit four-state machine,
following the amended claim C2: label lines (detected on the trimmed line)
switch the cursor and seed the field with the trailing same-line text; header
marker lines are skipped; any other non-empty line is appended newline-joined
to the current section only when the cursor points at the design-requests or
image-requests section; lines seen while the cursor is unset or points at the
team section are discarded. -/
def amendedStep (st : Sections × CurSec) (line : List Char) : Sections × CurSec :=
  let trimmed := trimChars line
  if trimmed = markerNew ∨ trimmed = markerEdit then st else
  if labelTeam <+: trimmed then
    ({ st.1 with team := trimChars (trimmed.drop labelTeam.length) }, CurSec.team) else
  if labelMain <+: trimmed then
    ({ st.1 with main := trimChars (trimmed.drop labelMain.length) }, CurSec.main) else
  if labelDetail <+: trimmed then
    ({ st.1 with detail := trimChars (trimmed.drop labelDetail.length) }, CurSec.detail) else
  if trimmed = [] then st else
  match st.2 with
  | CurSec.none => st
  | CurSec.team => st
  | CurSec.main =>
    ({ st.1 with main := st.1.main ++ (if st.1.main ≠ [] then '\n' :: trimmed else trimmed) }, st.2)
  | CurSec.detail =>
    ({ st.1 with detail := st.1.detail ++ (if st.1.detail ≠ [] then '\n' :: trimmed else trimmed) }, st.2)

/-- The amended-claim parser built from `amendedStep`. -/
def parseSectionsAmended (text : List Char) : Sections :=
  let st := (splitNl text).foldl amendedStep (⟨[], [], []⟩, CurSec.none)
  { team := trimChars st.1.team, main := trimChars st.1.main, detail := trimChars st.1.detail }

/-- Concrete input for the C2 counterexample: a team label line followed by a
content line. -/
def c2Input : List Char := "팀명:\nFalcons".data

/-- `isKorean` (src/index.js lines 17-19): the regex character class
`[ㄱ-ㅎ|ㅏ-ㅣ|가-힣]`, which contains the two Hangul compatibility-jamo
ranges, the Hangul syllable range, and the literal `|` character. -/
def koreanClassChar (c : Char) : Bool :=
  ('ㄱ' ≤ c ∧ c ≤ 'ㅎ') ∨ c = '|' ∨ ('ㅏ' ≤ c ∧ c ≤ 'ㅣ') ∨ ('가' ≤ c ∧ c ≤ '힣')

/-- `isKorean(text)`: the regex `test` is true iff some character of the text
is in the class. -/
def isKorean (text : List Char) : Bool :=
  text.any koreanClassChar

/-- The handler's target language choice (src/index.js line 233). -/
def targetLang (text : List Char) : List Char :=
  if isKorean text then "English".data else "Korean".data

/-- A character lies in one of the Unicode Hangul blocks named by claim C7:
Hangul Jamo (U+1100 - U+11FF), Hangul Compatibility Jamo (U+3130 - U+318F),
or Hangul Syllables (U+AC00 - U+D7A3). -/
def isHangulChar (c : Char) : Bool :=
  (0x1100 ≤ c.toNat ∧ c.toNat ≤ 0x11FF) ∨
  (0x3130 ≤ c.toNat ∧ c.toNat ≤ 0x318F) ∨
  (0xAC00 ≤ c.toNat ∧ c.toNat ≤ 0xD7A3)

/-- The C1 example input. -/
def c1Input : List Char := "팀명: Falcons".data

/-- The fixed translation dictionary `fixedTranslations`
(src/index.js lines 102-160), in source (insertion) order. -/
def fixedTranslations : List (List Char × List Char) := [
  ("연챠콜".data, "Light Charcoal".data),
  ("챠콜".data, "Charcoal".data),
  ("검정".data, "Black".data),
  ("딥챠콜".data, "Deep Charcoal".data),
  ("연회색".data, "Light Gray".data),
  ("회색".data, "Gray".data),
  ("진회색".data, "Dark Gray".data),
  ("은색".data, "Silver".data),
  ("백색".data, "White".data),
  ("오프화이트".data, "Off White".data),
  ("아이보리".data, "Ivory".data),
  ("모카".data, "Mocha".data),
  ("라이트 오렌지".data, "Light Orange".data),
  ("진핑크".data, "Vivid Pink".data),
  ("진자주".data, "Dark Wine Red".data),
  ("골드".data, "Gold".data),
  ("물색".data, "T-Turquoise Blue".data),
  ("청록".data, "Blue Green".data),
  ("비취".data, "Emerald Green".data),
  ("옥색".data, "Mint green".data),
  ("초록".data, "Green".data),
  ("핑크".data, "Pink".data),
  ("라이트 핑크".data, "Light Pink".data),
  ("연다홍".data, "Light Red".data),
  ("올리브".data, "Olive".data),
  ("코발트".data, "Cobalt Blue".data),
  ("E물색".data, "E-Turquoise Blue".data),
  ("연코발트".data, "Light Cobalt Blue".data),
  ("공군".data, "Gray Blue".data),
  ("중소라".data, "Sky Blue".data),
  ("E진소라".data, "E-Deep Sky Blue".data),
  ("진소라".data, "Deep Sky Blue".data),
  ("P-블루".data, "P-Blue".data),
  ("보라".data, "Purple".data),
  ("E보라".data, "E-Purple".data),
  ("가지".data, "Dark Purple".data),
  ("커피".data, "Coffee".data),
  ("밤색".data, "Brown".data),
  ("NC골드".data, "Champagne Gold".data),
  ("베이지".data, "Beige".data),
  ("연소라".data, "Light Sky Blue".data),
  ("연두".data, "Yellow Green".data),
  ("진수박".data, "Moss Green".data),
  ("수박".data, "Dark Green".data),
  ("오렌지".data, "Orange".data),
  ("진오렌지".data, "Dark Orange".data),
  ("진다홍".data, "Dark Red".data),
  ("다홍".data, "Red".data),
  ("E자주".data, "E-Wine Red".data),
  ("자주".data, "Wine Red".data),
  ("진곤색".data, "Dark navy".data),
  ("연곤색".data, "Royal Blue".data),
  ("곤색".data, "Navy".data),
  ("북청".data, "Navy blue".data),
  ("로얄".data, "Royal Blue".data),
  ("개나리".data, "Lemon Yellow".data),
  ("노랑".data, "Yellow".data)]

/-- Stable insertion of an entry into a list kept sorted by decreasing key
length: the entry moves past an element only when its key is strictly
longer, so equal-length entries keep their original relative order (the JS
`Array.prototype.sort` used in the source is stable). -/
def insertByLen (x : List Char × List Char) :
    List (List Char × List Char) → List (List Char × List Char)
  | [] => [x]
  | y :: ys => if y.1.length < x.1.length then x :: y :: ys else y :: insertByLen x ys

/-- The source's `sort((a, b) => b[0].length - a[0].length)`: a stable sort
by decreasing key length. -/
def sortByLenDesc (l : List (List Char × List Char)) : List (List Char × List Char) :=
  l.foldl (fun acc x => insertByLen x acc) []

/-- The dictionary in longest-first substitution order. -/
def fixedTranslationsSorted : List (List Char × List Char) :=
  sortByLenDesc fixedTranslations

/-- Decimal digit character. -/
def digitChar : Nat → Char
  | 0 => '0'
  | 1 => '1'
  | 2 => '2'
  | 3 => '3'
  | 4 => '4'
  | 5 => '5'
  | 6 => '6'
  | 7 => '7'
  | 8 => '8'
  | _ => '9'

/-- Fuel-driven helper for `natDigits`; the fuel only forces structural
recursion and is irrelevant once it is at least the number itself. -/
def natDigitsAux : Nat → Nat → List Char
  | 0, n => [digitChar (n % 10)]
  | fuel + 1, n =>
    if n < 10 then [digitChar n]
    else natDigitsAux fuel (n / 10) ++ [digitChar (n % 10)]

/-- Decimal digit string of a natural number (JS template `${idx}`). -/
def natDigits (n : Nat) : List Char := natDigitsAux n n

/-- The placeholder token `__FIXED_${idx}__`. -/
def fixedToken (i : Nat) : List Char :=
  "__FIXED_".data ++ natDigits i ++ "__".data

/-- Fuel-driven helper for `replaceAll`; the fuel only forces structural
recursion and is irrelevant once it is at least the text length. -/
def replaceAllAux (p r : List Char) : Nat → List Char → List Char
  | _, [] => []
  | 0, s => s
  | fuel + 1, c :: cs =>
    if p ≠ [] ∧ p <+: (c :: cs) then
      r ++ replaceAllAux p r fuel ((c :: cs).drop p.length)
    else
      c :: replaceAllAux p r fuel cs

/-- JS `text.replace(new RegExp(lit, 'g'), repl)` for a literal pattern:
left-to-right, non-overlapping replacement of every occurrence. -/
def replaceAll (p r s : List Char) : List Char :=
  replaceAllAux p r s.length s

/-- The dictionary loop of `preprocessFixedWords` (src/index.js lines
174-181): for each entry in sorted order, if the key occurs, replace every
occurrence with a fresh token and record token -> target-language term. -/
def dictPass : List (List Char × List Char) → Nat → List Char →
    List Char × List (List Char × List Char) × Nat
  | [], idx, s => (s, [], idx)
  | (kor, eng) :: rest, idx, s =>
    if kor <:+: s then
      let tok := fixedToken idx
      let out := dictPass rest (idx + 1) (replaceAll kor tok s)
      (out.1, (tok, eng) :: out.2.1, out.2.2)
    else dictPass rest idx s

/-- The bracket characters of the literal-span syntax `｟…｠`. -/
def brOpen : Char := '｟'

/-- Closing bracket of the literal-span syntax. -/
def brClose : Char := '｠'

/-- The bracket pass of `preprocessFixedWords` (src/index.js lines 184-189):
the global regex `｟([^｟｠]*)｠` replaces each matched span (delimiters
included in the recorded value) with a fresh token. -/
def replBrAux : Nat → Nat → List Char → List Char × List (List Char × List Char)
  | _, _, [] => ([], [])
  | 0, _, s => (s, [])
  | fuel + 1, idx, c :: cs =>
    if c = brOpen then
      match cs.dropWhile (fun d => d ≠ brOpen ∧ d ≠ brClose) with
      | d :: rest =>
        if d = brClose then
          let inner := cs.takeWhile (fun d => d ≠ brOpen ∧ d ≠ brClose)
          let tok := fixedToken idx
          let out := replBrAux fuel (idx + 1) rest
          (tok ++ out.1, (tok, brOpen :: (inner ++ [brClose])) :: out.2)
        else
          let out := replBrAux fuel idx cs
          (c :: out.1, out.2)
      | [] =>
        let out := replBrAux fuel idx cs
        (c :: out.1, out.2)
    else
      let out := replBrAux fuel idx cs
      (c :: out.1, out.2)

/-- The bracket pass driver: the fuel only forces structural recursion. -/
def replBr (idx : Nat) (s : List Char) : List Char × List (List Char × List Char) :=
  replBrAux s.length idx s

/-- `preprocessFixedWords` (src/index.js lines 169-191): dictionary pass
then bracket pass, placeholder map in insertion order. -/
def preprocessFixedWords (text : List Char) :
    List Char × List (List Char × List Char) :=
  let d := dictPass fixedTranslationsSorted 0 text
  let b := replBr d.2.2 d.1
  (b.1, d.2.1 ++ b.2)

/-- `postprocessFixedWords` (src/index.js lines 193-199): replace every
token with its mapped value, in map (insertion) order. -/
def postprocessFixedWords (text : List Char) (phs : List (List Char × List Char)) :
    List Char :=
  phs.foldl (fun acc pr => replaceAll pr.1 pr.2 acc) text

/-- The fixed notice returned by `translateText` on empty input
(src/index.js lines 28-30). -/
def emptyNotice : List Char :=
  "The system seems to be missing the text that needs translation. Could you please provide the text?".data

/-- `translateText` (src/index.js lines 27-47) with the external backend
abstracted as a function: empty or whitespace-only input short-circuits to
the fixed notice, anything else is sent to the backend. -/
def translateText (backend : List Char → List Char) (text : List Char) : List Char :=
  if trimChars text = [] then emptyNotice else backend text

/-- The reserved pass-through keyword. -/
def reservedWord : List Char := "유진식".data

/-- The regex `^\d+$` on the trimmed line. -/
def isDigitsOnly (l : List Char) : Bool :=
  l ≠ [] ∧ l.all (fun c => '0' ≤ c ∧ c ≤ '9')

/-- `translateLinesPreserveNumbers` (src/index.js lines 87-99): drop blank
lines; keep digit-only lines and reserved-keyword lines unchanged; translate
the rest. -/
def translateLinesPreserveNumbers (backend : List Char → List Char)
    (lines : List (List Char)) : List (List Char) :=
  (lines.filter (fun l => trimChars l ≠ [])).map (fun line =>
    if isDigitsOnly (trimChars line) ∨ reservedWord <:+: line then line
    else translateText backend line)

/-- The per-line pipeline the form branch actually runs (src/index.js lines
239-250): split the field, protect each line, translate every line, restore
placeholders, then drop blank results. -/
def formLineOutputs (backend : List Char → List Char) (field : List Char) :
    List (List Char) :=
  ((splitNl field).map (fun line =>
    let pre := preprocessFixedWords line
    postprocessFixedWords (translateText backend pre.1) pre.2)).filter
    (fun l => trimChars l ≠ [])

/-- The texts the form branch hands to the translation backend: one call per
line with the protected line, except that `translateText` short-circuits
blank input. -/
def formBackendInputs (field : List Char) : List (List Char) :=
  ((splitNl field).map (fun line => (preprocessFixedWords line).1)).filter
    (fun s => trimChars s ≠ [])

/-- The C6 failing input: a field consisting of the single line `123`. -/
def digitLine : List Char := "123".data

/-- A fixed marker standing for an arbitrary backend answer. -/
def backendMark : List Char := "TRANSLATED".data

/-- The C7 counterexample input: the single character `|`. -/
def pipeInput : List Char := "|".data

/-- The characters a placeholder token can contain: the marker letters,
underscores and decimal digits. -/
def isTokChar (c : Char) : Bool :=
  c = '_' ∨ c = 'F' ∨ c = 'I' ∨ c = 'X' ∨ c = 'E' ∨ c = 'D' ∨ c.isDigit

/-- Numeric value of a decimal digit character. -/
def digitVal (c : Char) : Nat := c.toNat - 48

/-- Decimal value of a digit string (left fold). -/
def digitsToNat (l : List Char) : Nat :=
  l.foldl (fun a c => 10 * a + digitVal c) 0

/-- The C4 witness input: the longer term `딥챠콜` next to the shorter `챠콜`. -/
def c4Input : List Char := "딥챠콜 챠콜".data

/-- The C5 counterexample input: the same dictionary term twice. -/
def c5Input : List Char := "챠콜 챠콜".data

/-- The C5 bracket-span demonstration input: the same span twice. -/
def c5BrInput : List Char := "｟a｠｟a｠".data

/-- A Slack Block Kit block, restricted to the fields the status handlers
read or write: the block type, the optional `block_id`, the block's text
payload (`text.text` for section blocks) and the texts of its context
elements. -/
structure SlackBlock where
  btype : List Char
  blockId : Option (List Char)
  btext : List Char
  elements : List (List Char)
deriving DecidableEq, Repr

/-- Overwrite the first list entry satisfying `p` (JS `Array.find` followed
by an in-place mutation). -/
def updateFirst (p : SlackBlock → Bool) (f : SlackBlock → SlackBlock) :
    List SlackBlock → List SlackBlock
  | [] => []
  | b :: bs => if p b then f b :: bs else b :: updateFirst p f bs

/-- `updateStatusBlock` (src/index.js lines 460-465): find the block with
`block_id === 'status_section'` and overwrite its display text; no block
found means no change. -/
def updateStatusBlock (blocks : List SlackBlock) (statusText : List Char) :
    List SlackBlock :=
  updateFirst (fun b => b.blockId = some "status_section".data)
    (fun b => { b with btext := statusText }) blocks

/-- Overwrite the last list entry. -/
def modifyLast (f : SlackBlock → SlackBlock) : List SlackBlock → List SlackBlock
  | [] => []
  | [b] => [f b]
  | b :: b2 :: bs => b :: modifyLast f (b2 :: bs)

/-- The assignee line `*작업자:* <@user>` written by every status handler. -/
def assigneeText (uid : List Char) : List Char :=
  "*작업자:* <@".data ++ uid ++ ">".data

/-- Overwrite the first context element of a block. -/
def setFirstElement (txt : List Char) (b : SlackBlock) : SlackBlock :=
  { b with elements := txt :: b.elements.tail }

/-- The body shared by the four status-button handlers (src/index.js lines
468-550): `updateStatusBlock(blocks, statusText)` followed by
`blocks[blocks.length-1].elements[0].text = assignee`. Indexing an empty
block array or a final block without elements throws in JS, modelled as
`none`. -/
def applyStatus (blocks : List SlackBlock) (statusText uid : List Char) :
    Option (List SlackBlock) :=
  match (updateStatusBlock blocks statusText).getLast? with
  | none => none
  | some lb =>
    if lb.elements = [] then none
    else some (modifyLast (setFirstElement (assigneeText uid))
      (updateStatusBlock blocks statusText))

/-- The status text written by the `status_completed` handler. -/
def statusCompletedText : List Char := "*Status:*\n*✅ Completed*".data

/-- The status text written by the `status_needs_revision` handler. -/
def statusNeedsRevisionText : List Char := "*Status:*\n*⚠️ Needs Revision*".data

/-- A concrete rendered card in the shape the form branch posts (header,
fields row, divider, design-request list, divider, image-request list,
action row, status section, assignee context). -/
def sampleCard : List SlackBlock := [
  ⟨"header".data, none, "【NEW】 Design Request Form".data, []⟩,
  ⟨"section".data, none, "fields".data, []⟩,
  ⟨"divider".data, none, [], []⟩,
  ⟨"section".data, none, "*🎨 Design Requests*\n• Make the logo bigger".data, []⟩,
  ⟨"divider".data, none, [], []⟩,
  ⟨"section".data, none, "*🖼️ Image Requests*\n• 1".data, []⟩,
  ⟨"actions".data, none, [], []⟩,
  ⟨"section".data, some "status_section".data, "*Status:*\n*👀 Pending Review*".data, []⟩,
  ⟨"context".data, none, [], ["*작업자:* <@U1>".data]⟩]

/-- `sampleCard` after one `status_completed` event by user `U2`. -/
def sampleCardCompleted : List SlackBlock := [
  ⟨"header".data, none, "【NEW】 Design Request Form".data, []⟩,
  ⟨"section".data, none, "fields".data, []⟩,
  ⟨"divider".data, none, [], []⟩,
  ⟨"section".data, none, "*🎨 Design Requests*\n• Make the logo bigger".data, []⟩,
  ⟨"divider".data, none, [], []⟩,
  ⟨"section".data, none, "*🖼️ Image Requests*\n• 1".data, []⟩,
  ⟨"actions".data, none, [], []⟩,
  ⟨"section".data, some "status_section".data, statusCompletedText, []⟩,
  ⟨"context".data, none, [], [assigneeText "U2".data]⟩]

/-- `sampleCard` after one `status_needs_revision` event by user `U2`. -/
def sampleCardRevised : List SlackBlock := [
  ⟨"header".data, none, "【NEW】 Design Request Form".data, []⟩,
  ⟨"section".data, none, "fields".data, []⟩,
  ⟨"divider".data, none, [], []⟩,
  ⟨"section".data, none, "*🎨 Design Requests*\n• Make the logo bigger".data, []⟩,
  ⟨"divider".data, none, [], []⟩,
  ⟨"section".data, none, "*🖼️ Image Requests*\n• 1".data, []⟩,
  ⟨"actions".data, none, [], []⟩,
  ⟨"section".data, some "status_section".data, statusNeedsRevisionText, []⟩,
  ⟨"context".data, none, [], [assigneeText "U2".data]⟩]

/-- A parser field is clean when it is empty or the newline-join of a
non-empty list of non-empty, newline-free lines each of which is the trim of
some string. -/
def CleanField (f : List Char) : Prop :=
  f = [] ∨ ∃ ls : List (List Char), ls ≠ [] ∧
    (∀ l ∈ ls, l ≠ [] ∧ '\n' ∉ l ∧ ∃ x, l = trimChars x) ∧ f = joinNl ls

/-- Whether a line is one of the two header markers (after trimming). -/
def isMarkerLine (l : List Char) : Bool :=
  trimChars l = markerNew ∨ trimChars l = markerEdit

/-- The body text with the header-marker lines removed. -/
def stripMarkerLines (text : List Char) : List Char :=
  joinNl ((splitNl text).filter (fun l => ¬ isMarkerLine l))

/-- The C10 witness input: labelled sections with padded lines, blank lines
and a mid-body header marker. -/
def c10Input : List Char :=
  "디자인 요청사항: 로고\n  빨강  \n\n【신규】\n2번".data

/-- A token-respecting translation output, as a list of chunks: rewritten
prose segments (`Sum.inl`) interleaved with preserved placeholder tokens
(`Sum.inr`, by token index). -/
def render (cs : List (List Char ⊕ Nat)) : List Char :=
  cs.foldr (fun ch acc =>
    (match ch with
     | Sum.inl s => s
     | Sum.inr i => fixedToken i) ++ acc) []

/-- The value the placeholder map assigns to token `i` (the token itself
when the map has no entry for it). -/
def lookupTok (phs : List (List Char × List Char)) (i : Nat) : List Char :=
  match phs.find? (fun pr => pr.1 = fixedToken i) with
  | some pr => pr.2
  | none => fixedToken i

/-- A chunk list rendered with every mapped token replaced by its value. -/
def renderWith (phs : List (List Char × List Char)) (cs : List (List Char ⊕ Nat)) :
    List Char :=
  cs.foldr (fun ch acc =>
    (match ch with
     | Sum.inl s => s
     | Sum.inr i => lookupTok phs i) ++ acc) []

/-- Replace the token chunks with index `i` by the literal segment `v`. -/
def substTok (i : Nat) (v : List Char) (cs : List (List Char ⊕ Nat)) :
    List (List Char ⊕ Nat) :=
  cs.map (fun ch =>
    match ch with
    | Sum.inl s => Sum.inl s
    | Sum.inr j => if j = i then Sum.inl v else Sum.inr j)

/-- All prose segments of a chunk list are free of the token marker
character `_`. -/
def SegClean (cs : List (List Char ⊕ Nat)) : Prop :=
  ∀ s : List Char, Sum.inl s ∈ cs → '_' ∉ s

/-- Boolean check for `SegClean` on a concrete chunk list. -/
def segCleanB (cs : List (List Char ⊕ Nat)) : Bool :=
  cs.all (fun ch =>
    match ch with
    | Sum.inl s => decide ('_' ∉ s)
    | Sum.inr _ => true)

/-- The C3 counterexample input: a single dictionary term. -/
def c3Input : List Char := "챠콜".data

/-- The C3 witness input: two dictionary terms and a bracket-literal span. -/
def c3WitnessInput : List Char := "챠콜 ｟Logo-X｠ 검정".data

/-- A token-respecting translation of the protected witness text: the three
tokens survive in order while the prose around them is rewritten. -/
def c3WitnessChunks : List (List Char ⊕ Nat) :=
  [Sum.inl "The colors ".data, Sum.inr 0, Sum.inl " and ".data, Sum.inr 1,
   Sum.inl " keep ".data, Sum.inr 2, Sum.inl " intact".data]

theorem trimChars_nil : trimChars [] = [] := rfl

/-- A small sanity example for the parser embedding. -/
example :
    parseSections "팀명: Falcons\n디자인 요청사항: 로고\n1".data =
      ⟨"Falcons".data, ("로고".data ++ '\n' :: "1".data), []⟩ := by decide

/-- C1: `isForm` is true iff at least one of the three parsed fields is
non-empty; in particular the spec's example with only a team label yields a
form with both request fields empty, so all three are not required. -/
theorem c1_isForm_iff :
    (∀ text : List Char,
      isForm text = true ↔
        ((parseSections text).team ≠ [] ∨ (parseSections text).main ≠ [] ∨
          (parseSections text).detail ≠ [])) ∧
    isForm c1Input = true ∧
    parseSections c1Input = ⟨"Falcons".data, [], []⟩ := by
  refine ⟨?_, by decide, by decide⟩
  intro text
  simp [isForm]

/-- C2 counterexample: on `"팀명:" ⏎ "Falcons"` the claimed cursor machine
(which appends follow-up lines to the team section too) yields team
`"Falcons"`, but the source parser discards lines seen while the cursor
points at the team section, yielding an empty team. -/
theorem c2_counterexample :
    (parseSectionsClaimed c2Input).team = "Falcons".data ∧
      (parseSections c2Input).team = [] := by
  decide

/-- C2 amended: the source parser is exactly the cursor machine of the claim
with the team-append removed: label lines switch the cursor and seed the
field, header-marker lines are skipped, subsequent non-empty lines are
appended (newline-joined, in original order) only while the cursor points at
the design-requests or image-requests section, and non-empty lines seen while
the cursor is unset or points at the team section are discarded. -/
theorem parseStep_eq_amendedStep (secs : Sections) (cur : CurSec) (line : List Char) :
    parseStep (secs, cur) line = amendedStep (secs, cur) line := by
  simp only [parseStep, amendedStep]
  by_cases h1 : trimChars line = markerNew ∨ trimChars line = markerEdit
  · rw [if_pos h1, if_pos h1]
  rw [if_neg h1, if_neg h1]
  by_cases h2 : labelTeam <+: trimChars line
  · rw [if_pos h2, if_pos h2]
  rw [if_neg h2, if_neg h2]
  by_cases h3 : labelMain <+: trimChars line
  · rw [if_pos h3, if_pos h3]
  rw [if_neg h3, if_neg h3]
  by_cases h4 : labelDetail <+: trimChars line
  · rw [if_pos h4, if_pos h4]
  rw [if_neg h4, if_neg h4]
  by_cases h5 : trimChars line = []
  · rw [if_neg (fun hc => hc.2 h5), if_neg (fun hc => hc.2 h5), if_pos h5]
  rw [if_neg h5]
  cases cur
  · rw [if_neg (fun hc => CurSec.noConfusion hc.1),
      if_neg (fun hc => CurSec.noConfusion hc.1)]
  · rw [if_neg (fun hc => CurSec.noConfusion hc.1),
      if_neg (fun hc => CurSec.noConfusion hc.1)]
  · rw [if_pos ⟨rfl, h5⟩]
  · rw [if_neg (fun hc => CurSec.noConfusion hc.1), if_pos ⟨rfl, h5⟩]

theorem c2_amended :
    ∀ text : List Char, parseSections text = parseSectionsAmended text := by
  intro text
  unfold parseSections parseSectionsAmended
  suffices h : ∀ (ls : List (List Char)) (st : Sections × CurSec),
      ls.foldl parseStep st = ls.foldl amendedStep st by
    rw [h]
  intro ls
  induction ls with
  | nil => intro st; rfl
  | cons l ls ih =>
    intro st
    obtain ⟨secs, cur⟩ := st
    simp only [List.foldl_cons, parseStep_eq_amendedStep, ih]

/-- C7 counterexample: the source regex class `[ㄱ-ㅎ|ㅏ-ㅣ|가-힣]` contains
the literal `|` character, so `isKorean "|"` is true although `"|"` contains
no character of the Hangul Jamo, Hangul Compatibility Jamo or Hangul Syllable
blocks; the claimed iff fails in the only-if direction. -/
theorem c7_counterexample :
    isKorean pipeInput = true ∧ ∀ c ∈ pipeInput, isHangulChar c = false := by
  decide

/-- C7 amended: `isKorean` is true iff the text contains a character of the
compatibility-jamo consonant range `ㄱ-ㅎ`, the compatibility-jamo vowel
range `ㅏ-ㅣ`, the syllable range `가-힣`, or the literal `|` character (an
artifact of writing `|` between the ranges inside the regex character
class); the handler then targets English exactly when `isKorean` is true and
Korean otherwise. -/
theorem c7_amended :
    ∀ text : List Char,
      (isKorean text = true ↔ ∃ c ∈ text, koreanClassChar c = true) ∧
      (isKorean text = true → targetLang text = "English".data) ∧
      (isKorean text = false → targetLang text = "Korean".data) := by
  intro text
  refine ⟨List.any_eq_true, fun h => ?_, fun h => ?_⟩
  · simp [targetLang, h]
  · simp [targetLang, h]

/-- Witness for `c7_amended` at concrete inputs. -/
theorem c7_amended_witness :
    targetLang "안녕".data = "English".data ∧ targetLang "hello".data = "Korean".data :=
  ⟨(c7_amended ("안녕".data)).2.1 (by decide), (c7_amended ("hello".data)).2.2 (by decide)⟩

/-- C6 (code bug): the form branch (src/index.js lines 239-250) does not use
`translateLinesPreserveNumbers`; it protects and translates every line, so
the digit-only line `123` is handed to the translation backend and the
rendered output is whatever the backend returns, not the original line. The
unused helper `translateLinesPreserveNumbers` does satisfy the claimed
property on the same input. -/
theorem c6_code_bug :
    digitLine ∈ formBackendInputs digitLine ∧
    formLineOutputs (fun _ => backendMark) digitLine = [backendMark] ∧
    translateLinesPreserveNumbers (fun _ => backendMark) [digitLine] = [digitLine] := by
  decide

/-! ### Unfolding equations for the fuel-driven scanners -/

theorem replaceAllAux_congr (p r : List Char) :
    ∀ f1 f2 (s : List Char), s.length ≤ f1 → s.length ≤ f2 →
      replaceAllAux p r f1 s = replaceAllAux p r f2 s := by
  intro f1
  induction f1 with
  | zero =>
    intro f2 s h1 _
    have : s = [] := List.eq_nil_of_length_eq_zero (Nat.le_zero.mp h1)
    subst this
    cases f2 <;> rfl
  | succ f ih =>
    intro f2 s h1 h2
    cases s with
    | nil => cases f2 <;> rfl
    | cons c cs =>
      cases f2 with
      | zero => simp at h2
      | succ g =>
        simp only [replaceAllAux]
        by_cases hm : p ≠ [] ∧ p <+: (c :: cs)
        · rw [if_pos hm, if_pos hm]
          have hp : 0 < p.length := List.length_pos.mpr hm.1
          have hd : ((c :: cs).drop p.length).length ≤ f := by
            simp only [List.length_drop, List.length_cons]
            simp only [List.length_cons] at h1
            omega
          have hd2 : ((c :: cs).drop p.length).length ≤ g := by
            simp only [List.length_drop, List.length_cons]
            simp only [List.length_cons] at h2
            omega
          rw [ih g _ hd hd2]
        · rw [if_neg hm, if_neg hm]
          simp only [List.length_cons] at h1 h2
          rw [ih g cs (by omega) (by omega)]

theorem replaceAll_nil (p r : List Char) : replaceAll p r [] = [] := rfl

theorem replaceAll_cons_pos {p : List Char} (r : List Char) {c : Char} {cs : List Char}
    (h0 : p ≠ []) (hp : p <+: (c :: cs)) :
    replaceAll p r (c :: cs) = r ++ replaceAll p r ((c :: cs).drop p.length) := by
  have hlen : 0 < p.length := List.length_pos.mpr h0
  show replaceAllAux p r (c :: cs).length (c :: cs) = _
  simp only [List.length_cons, replaceAllAux]
  rw [if_pos ⟨h0, hp⟩]
  congr 1
  exact replaceAllAux_congr p r _ _ _
    (by simp only [List.length_drop, List.length_cons]; omega)
    (Nat.le_refl _)

theorem replaceAll_cons_neg {p : List Char} (r : List Char) {c : Char} {cs : List Char}
    (h : ¬ (p ≠ [] ∧ p <+: (c :: cs))) :
    replaceAll p r (c :: cs) = c :: replaceAll p r cs := by
  show replaceAllAux p r (c :: cs).length (c :: cs) = _
  simp only [List.length_cons, replaceAllAux]
  rw [if_neg h]
  rfl

theorem natDigitsAux_congr :
    ∀ f1 f2 n, n ≤ f1 → n ≤ f2 → natDigitsAux f1 n = natDigitsAux f2 n := by
  intro f1
  induction f1 with
  | zero =>
    intro f2 n h1 _
    have : n = 0 := Nat.le_zero.mp h1
    subst this
    cases f2 with
    | zero => rfl
    | succ g => simp [natDigitsAux]
  | succ f ih =>
    intro f2 n h1 h2
    cases f2 with
    | zero =>
      have : n = 0 := Nat.le_zero.mp h2
      subst this
      simp [natDigitsAux]
    | succ g =>
      simp only [natDigitsAux]
      by_cases hn : n < 10
      · rw [if_pos hn, if_pos hn]
      · rw [if_neg hn, if_neg hn]
        have hlt : n / 10 < n := Nat.div_lt_self (by omega) (by omega)
        rw [ih g _ (by omega) (by omega)]

theorem natDigits_lt {n : Nat} (h : n < 10) : natDigits n = [digitChar n] := by
  unfold natDigits
  cases n with
  | zero => rfl
  | succ m => simp [natDigitsAux, h]

theorem natDigits_ge {n : Nat} (h : 10 ≤ n) :
    natDigits n = natDigits (n / 10) ++ [digitChar (n % 10)] := by
  unfold natDigits
  cases n with
  | zero => omega
  | succ m =>
    simp only [natDigitsAux]
    rw [if_neg (by omega)]
    congr 1
    have hlt : (m + 1) / 10 < m + 1 := Nat.div_lt_self (by omega) (by omega)
    exact natDigitsAux_congr m ((m + 1) / 10) ((m + 1) / 10) (by omega) (Nat.le_refl _)

/-! ### Occurrence lemmas for the literal replace scanner -/

theorem last_mem_of_suffix {x : Char} {t q1 : List Char}
    (h : q1 <:+ t ++ [x]) (hne : q1 ≠ []) : x ∈ q1 := by
  have h2 : q1.reverse <+: (t ++ [x]).reverse := List.reverse_prefix.mpr h
  rw [List.reverse_append] at h2
  simp only [List.reverse_cons, List.reverse_nil, List.nil_append, List.singleton_append] at h2
  cases hq : q1.reverse with
  | nil =>
    exact absurd (by simpa using congrArg List.reverse hq) hne
  | cons a as =>
    rw [hq] at h2
    have ha : a = x := (List.cons_prefix_cons.mp h2).1
    have hmem : a ∈ q1.reverse := by rw [hq]; exact List.mem_cons_self a as
    rw [ha] at hmem
    exact List.mem_reverse.mp hmem

theorem pre_append_cases {q a b : List Char} (h : q <+: a ++ b) :
    q <+: a ∨ ∃ t, q = a ++ t ∧ t <+: b := by
  induction a generalizing q with
  | nil => exact Or.inr ⟨q, rfl, h⟩
  | cons c a' ih =>
    cases q with
    | nil => exact Or.inl List.nil_prefix
    | cons d q' =>
      rw [List.cons_append] at h
      obtain ⟨hdc, hq'⟩ := List.cons_prefix_cons.mp h
      subst hdc
      rcases ih hq' with h1 | ⟨t, rfl, ht⟩
      · exact Or.inl (List.cons_prefix_cons.mpr ⟨rfl, h1⟩)
      · exact Or.inr ⟨t, by simp, ht⟩

theorem infix_append_cases {q a b : List Char} (h : q <:+: a ++ b) :
    q <:+: a ∨ q <:+: b ∨
      ∃ q1 q2, q = q1 ++ q2 ∧ q1 ≠ [] ∧ q2 ≠ [] ∧ q1 <:+ a ∧ q2 <+: b := by
  induction a generalizing q with
  | nil => exact Or.inr (Or.inl (by simpa using h))
  | cons c a' ih =>
    rw [List.cons_append] at h
    rcases List.infix_cons_iff.mp h with hpre | hinf
    · cases q with
      | nil => exact Or.inl List.nil_infix
      | cons d q' =>
        obtain ⟨hdc, hq'⟩ := List.cons_prefix_cons.mp hpre
        rcases pre_append_cases hq' with h1 | ⟨t, hqt, ht⟩
        · exact Or.inl (List.IsPrefix.isInfix (List.cons_prefix_cons.mpr ⟨hdc, h1⟩))
        · cases t with
          | nil =>
            have heq : d :: q' = c :: a' := by rw [hdc, hqt]; simp
            rw [heq]
            exact Or.inl (List.infix_refl _)
          | cons e t' =>
            refine Or.inr (Or.inr ⟨c :: a', e :: t', ?_, by simp, by simp,
              List.suffix_refl _, ht⟩)
            rw [hdc, hqt]
            simp
    · rcases ih hinf with h1 | h2 | ⟨q1, q2, hq, h1ne, h2ne, hsuf, hpre2⟩
      · exact Or.inl (List.infix_cons h1)
      · exact Or.inr (Or.inl h2)
      · exact Or.inr (Or.inr ⟨q1, q2, hq, h1ne, h2ne,
          hsuf.trans (List.suffix_cons c a'), hpre2⟩)

theorem not_pre_replaceAll (p r : List Char) (ht : ∃ t, r = '_' :: t) :
    ∀ n s σ, s.length ≤ n → σ ≠ [] → '_' ∉ σ → ¬ σ <+: s →
      ¬ σ <+: replaceAll p r s := by
  intro n
  induction n with
  | zero =>
    intro s σ hlen hσ _ _
    have hnil : s = [] := List.eq_nil_of_length_eq_zero (Nat.le_zero.mp hlen)
    subst hnil
    rw [replaceAll_nil]
    exact fun hc => hσ (List.prefix_nil.mp hc)
  | succ n ih =>
    intro s σ hlen hσ hσu hpre
    cases s with
    | nil =>
      rw [replaceAll_nil]
      exact fun hc => hσ (List.prefix_nil.mp hc)
    | cons c cs =>
      by_cases hm : p ≠ [] ∧ p <+: (c :: cs)
      · rw [replaceAll_cons_pos _ hm.1 hm.2]
        obtain ⟨t, rfl⟩ := ht
        rw [List.cons_append]
        intro hcon
        cases σ with
        | nil => exact hσ rfl
        | cons d σ' =>
          have hd : d = '_' := (List.cons_prefix_cons.mp hcon).1
          exact hσu (by rw [← hd]; exact List.mem_cons_self _ _)
      · rw [replaceAll_cons_neg _ hm]
        intro hcon
        cases σ with
        | nil => exact hσ rfl
        | cons d σ' =>
          obtain ⟨hdc, hσ'⟩ := List.cons_prefix_cons.mp hcon
          subst hdc
          by_cases hσ'nil : σ' = []
          · subst hσ'nil
            exact hpre (List.cons_prefix_cons.mpr ⟨rfl, List.nil_prefix⟩)
          · have hnp : ¬ σ' <+: cs := fun hh => hpre (List.cons_prefix_cons.mpr ⟨rfl, hh⟩)
            have hlen' : cs.length ≤ n := by
              simp only [List.length_cons] at hlen
              omega
            exact ih cs σ' hlen' hσ'nil (fun hmem => hσu (List.mem_cons_of_mem _ hmem))
              hnp hσ'

theorem replaceAll_removes (p r : List Char)
    (hp0 : p ≠ []) (ht : ∃ t, r = '_' :: t) (hs : ∃ t, r = t ++ ['_'])
    (hpu : '_' ∉ p) (hex : ∃ c ∈ p, c ∉ r) :
    ∀ n s, s.length ≤ n → ¬ p <:+: replaceAll p r s := by
  intro n
  induction n with
  | zero =>
    intro s hlen
    have hnil : s = [] := List.eq_nil_of_length_eq_zero (Nat.le_zero.mp hlen)
    subst hnil
    rw [replaceAll_nil]
    intro hc
    exact hp0 (List.infix_nil.mp hc)
  | succ n ih =>
    intro s hlen
    cases s with
    | nil =>
      rw [replaceAll_nil]
      intro hc
      exact hp0 (List.infix_nil.mp hc)
    | cons c cs =>
      have hplen : 0 < p.length := List.length_pos.mpr hp0
      simp only [List.length_cons] at hlen
      by_cases hm : p <+: (c :: cs)
      · rw [replaceAll_cons_pos _ hp0 hm]
        intro hinf
        rcases infix_append_cases hinf with h1 | h2 | ⟨q1, q2, hq, h1ne, _, hsuf, _⟩
        · obtain ⟨ch, hcp, hcr⟩ := hex
          exact hcr (h1.subset hcp)
        · have hd : ((c :: cs).drop p.length).length ≤ n := by
            simp only [List.length_drop, List.length_cons]
            omega
          exact ih _ hd h2
        · obtain ⟨t, hrt⟩ := hs
          rw [hrt] at hsuf
          have : '_' ∈ q1 := last_mem_of_suffix hsuf h1ne
          exact hpu (by rw [hq]; exact List.mem_append.mpr (Or.inl this))
      · rw [replaceAll_cons_neg _ (fun hcon => hm hcon.2)]
        intro hinf
        rcases List.infix_cons_iff.mp hinf with hpre | htail
        · cases p with
          | nil => exact hp0 rfl
          | cons d p' =>
            obtain ⟨hdc, hp'⟩ := List.cons_prefix_cons.mp hpre
            subst hdc
            by_cases hp'nil : p' = []
            · subst hp'nil
              exact hm (List.cons_prefix_cons.mpr ⟨rfl, List.nil_prefix⟩)
            · have hnp : ¬ p' <+: cs := fun hh => hm (List.cons_prefix_cons.mpr ⟨rfl, hh⟩)
              exact not_pre_replaceAll _ _ ht cs.length cs p' (Nat.le_refl _) hp'nil
                (fun hmem => hpu (List.mem_cons_of_mem _ hmem)) hnp hp'
        · exact ih cs (by omega) htail

theorem replaceAll_preserves_absent (p r q : List Char)
    (ht : ∃ t, r = '_' :: t) (hs : ∃ t, r = t ++ ['_'])
    (hq0 : q ≠ []) (hqu : '_' ∉ q) (hex : ∃ c ∈ q, c ∉ r) :
    ∀ n s, s.length ≤ n → ¬ q <:+: s → ¬ q <:+: replaceAll p r s := by
  intro n
  induction n with
  | zero =>
    intro s hlen habs
    have hnil : s = [] := List.eq_nil_of_length_eq_zero (Nat.le_zero.mp hlen)
    subst hnil
    rw [replaceAll_nil]
    exact habs
  | succ n ih =>
    intro s hlen habs
    cases s with
    | nil =>
      rw [replaceAll_nil]
      exact habs
    | cons c cs =>
      simp only [List.length_cons] at hlen
      by_cases hm : p ≠ [] ∧ p <+: (c :: cs)
      · have hplen : 0 < p.length := List.length_pos.mpr hm.1
        rw [replaceAll_cons_pos _ hm.1 hm.2]
        intro hinf
        rcases infix_append_cases hinf with h1 | h2 | ⟨q1, q2, hq, h1ne, _, hsuf, _⟩
        · obtain ⟨ch, hcp, hcr⟩ := hex
          exact hcr (h1.subset hcp)
        · have habs' : ¬ q <:+: (c :: cs).drop p.length :=
            fun hh => habs (hh.trans (List.drop_suffix _ _).isInfix)
          have hd : ((c :: cs).drop p.length).length ≤ n := by
            simp only [List.length_drop, List.length_cons]
            omega
          exact ih _ hd habs' h2
        · obtain ⟨t, hrt⟩ := hs
          rw [hrt] at hsuf
          have : '_' ∈ q1 := last_mem_of_suffix hsuf h1ne
          exact hqu (by rw [hq]; exact List.mem_append.mpr (Or.inl this))
      · rw [replaceAll_cons_neg _ hm]
        intro hinf
        rcases List.infix_cons_iff.mp hinf with hpre | htail
        · cases q with
          | nil => exact hq0 rfl
          | cons d q' =>
            obtain ⟨hdc, hq'⟩ := List.cons_prefix_cons.mp hpre
            subst hdc
            by_cases hq'nil : q' = []
            · subst hq'nil
              exact habs (List.IsPrefix.isInfix
                (List.cons_prefix_cons.mpr ⟨rfl, List.nil_prefix⟩))
            · have hnq : ¬ q' <+: cs := fun hh =>
                habs (List.IsPrefix.isInfix (List.cons_prefix_cons.mpr ⟨rfl, hh⟩))
              exact not_pre_replaceAll _ _ ht cs.length cs q' (Nat.le_refl _) hq'nil
                (fun hmem => hqu (List.mem_cons_of_mem _ hmem)) hnq hq'
        · exact ih cs (by omega) (fun hh => habs (List.infix_cons hh)) htail

/-! ### Digit and token structure facts -/

theorem digitChar_isDigit (d : Nat) : (digitChar d).isDigit = true := by
  unfold digitChar
  split <;> decide

theorem natDigitsAux_digits :
    ∀ fuel n c, c ∈ natDigitsAux fuel n → c.isDigit = true := by
  intro fuel
  induction fuel with
  | zero =>
    intro n c hc
    simp only [natDigitsAux, List.mem_singleton] at hc
    rw [hc]
    exact digitChar_isDigit _
  | succ f ih =>
    intro n c hc
    simp only [natDigitsAux] at hc
    by_cases hn : n < 10
    · rw [if_pos hn] at hc
      simp only [List.mem_singleton] at hc
      rw [hc]
      exact digitChar_isDigit _
    · rw [if_neg hn] at hc
      rcases List.mem_append.mp hc with h1 | h2
      · exact ih _ _ h1
      · simp only [List.mem_singleton] at h2
        rw [h2]
        exact digitChar_isDigit _

theorem natDigits_digits {n : Nat} {c : Char} (h : c ∈ natDigits n) :
    c.isDigit = true :=
  natDigitsAux_digits n n c h

theorem natDigitsAux_ne_nil : ∀ fuel n, natDigitsAux fuel n ≠ [] := by
  intro fuel n
  cases fuel with
  | zero => simp [natDigitsAux]
  | succ f =>
    simp only [natDigitsAux]
    by_cases hn : n < 10
    · rw [if_pos hn]; simp
    · rw [if_neg hn]; simp

theorem natDigits_ne_nil (n : Nat) : natDigits n ≠ [] :=
  natDigitsAux_ne_nil n n

theorem digit_ne_underscore {c : Char} (h : c.isDigit = true) : c ≠ '_' := by
  intro he
  subst he
  exact absurd h (by decide)

theorem digitVal_digitChar : ∀ d, d < 10 → digitVal (digitChar d) = d := by
  intro d hd
  interval_cases d <;> rfl

theorem digitsToNat_natDigits : ∀ n, digitsToNat (natDigits n) = n := by
  intro n
  induction n using Nat.strong_induction_on with
  | _ n ih =>
    by_cases h : n < 10
    · rw [natDigits_lt h]
      show 10 * 0 + digitVal (digitChar n) = n
      rw [digitVal_digitChar n h]
      omega
    · rw [natDigits_ge (by omega)]
      unfold digitsToNat
      rw [List.foldl_append]
      have hlt : n / 10 < n := Nat.div_lt_self (by omega) (by omega)
      have hih := ih (n / 10) hlt
      unfold digitsToNat at hih
      simp only [List.foldl_cons, List.foldl_nil]
      rw [hih, digitVal_digitChar _ (Nat.mod_lt _ (by omega))]
      omega

theorem natDigits_inj {i j : Nat} (h : natDigits i = natDigits j) : i = j := by
  have hi := digitsToNat_natDigits i
  have hj := digitsToNat_natDigits j
  rw [h] at hi
  rw [hj] at hi
  exact hi.symm

theorem fixedToken_head (i : Nat) :
    ∃ t, fixedToken i = '_' :: t :=
  ⟨("_FIXED_".data ++ natDigits i) ++ "__".data, rfl⟩

theorem fixedToken_snoc (i : Nat) :
    ∃ t, fixedToken i = t ++ ['_'] := by
  refine ⟨"__FIXED_".data ++ natDigits i ++ ['_'], ?_⟩
  show ("__FIXED_".data ++ natDigits i) ++ ('_' :: '_' :: []) = _
  rw [List.append_assoc, List.append_assoc]
  rfl

theorem marker_tokChars : ∀ c ∈ "__FIXED_".data, isTokChar c = true := by decide

theorem underscores_tokChars : ∀ c ∈ "__".data, isTokChar c = true := by decide

theorem fixedToken_tokChars {i : Nat} {c : Char} (h : c ∈ fixedToken i) :
    isTokChar c = true := by
  unfold fixedToken at h
  rcases List.mem_append.mp h with h1 | h2
  · rcases List.mem_append.mp h1 with h3 | h4
    · exact marker_tokChars c h3
    · have := natDigits_digits h4
      simp [isTokChar, this]
  · exact underscores_tokChars c h2

theorem fixedToken_ne_nil (i : Nat) : fixedToken i ≠ [] := by
  obtain ⟨t, ht⟩ := fixedToken_head i
  rw [ht]
  simp

theorem fixedToken_inj {i j : Nat} (h : fixedToken i = fixedToken j) : i = j := by
  unfold fixedToken at h
  rw [List.append_assoc, List.append_assoc] at h
  have h2 := List.append_cancel_left h
  have h3 := List.append_cancel_right h2
  exact natDigits_inj h3

/-! ### Unfolding equations for the bracket scanner -/

theorem replBrAux_congr :
    ∀ f1 f2 idx (s : List Char), s.length ≤ f1 → s.length ≤ f2 →
      replBrAux f1 idx s = replBrAux f2 idx s := by
  intro f1
  induction f1 with
  | zero =>
    intro f2 idx s h1 _
    have hnil : s = [] := List.eq_nil_of_length_eq_zero (Nat.le_zero.mp h1)
    subst hnil
    cases f2 <;> rfl
  | succ f ih =>
    intro f2 idx s h1 h2
    cases s with
    | nil => cases f2 <;> rfl
    | cons c cs =>
      cases f2 with
      | zero => simp at h2
      | succ g =>
        simp only [List.length_cons] at h1 h2
        simp only [replBrAux]
        by_cases hc : c = brOpen
        · rw [if_pos hc, if_pos hc]
          cases hdw : cs.dropWhile (fun d => decide (d ≠ brOpen ∧ d ≠ brClose)) with
          | nil =>
            dsimp only
            rw [ih g idx cs (by omega) (by omega)]
          | cons d rest =>
            dsimp only
            have hl : (d :: rest).length ≤ cs.length := by
              rw [← hdw]
              exact (List.dropWhile_suffix _).length_le
            simp only [List.length_cons] at hl
            by_cases hd : d = brClose
            · rw [if_pos hd, if_pos hd,
                ih g (idx + 1) rest (by omega) (by omega)]
            · rw [if_neg hd, if_neg hd, ih g idx cs (by omega) (by omega)]
        · rw [if_neg hc, if_neg hc, ih g idx cs (by omega) (by omega)]

theorem replBr_nil (idx : Nat) : replBr idx [] = ([], []) := rfl

theorem replBr_cons_other {c : Char} {cs : List Char} (idx : Nat) (hc : c ≠ brOpen) :
    replBr idx (c :: cs) = (c :: (replBr idx cs).1, (replBr idx cs).2) := by
  show replBrAux (c :: cs).length idx (c :: cs) = _
  simp only [List.length_cons, replBrAux]
  rw [if_neg hc]
  rfl

theorem replBr_cons_open_nil {c : Char} {cs : List Char} (idx : Nat) (hc : c = brOpen)
    (hdw : cs.dropWhile (fun d => decide (d ≠ brOpen ∧ d ≠ brClose)) = []) :
    replBr idx (c :: cs) = (c :: (replBr idx cs).1, (replBr idx cs).2) := by
  show replBrAux (c :: cs).length idx (c :: cs) = _
  simp only [List.length_cons, replBrAux]
  rw [if_pos hc, hdw]
  rfl

theorem replBr_cons_open_noclose {c d : Char} {cs rest : List Char} (idx : Nat)
    (hc : c = brOpen)
    (hdw : cs.dropWhile (fun d => decide (d ≠ brOpen ∧ d ≠ brClose)) = d :: rest)
    (hd : d ≠ brClose) :
    replBr idx (c :: cs) = (c :: (replBr idx cs).1, (replBr idx cs).2) := by
  show replBrAux (c :: cs).length idx (c :: cs) = _
  simp only [List.length_cons, replBrAux]
  rw [if_pos hc, hdw]
  dsimp only
  rw [if_neg hd]
  rfl

theorem replBr_cons_open_close {c d : Char} {cs rest : List Char} (idx : Nat)
    (hc : c = brOpen)
    (hdw : cs.dropWhile (fun d => decide (d ≠ brOpen ∧ d ≠ brClose)) = d :: rest)
    (hd : d = brClose) :
    replBr idx (c :: cs) =
      (fixedToken idx ++ (replBr (idx + 1) rest).1,
        (fixedToken idx,
          brOpen :: (cs.takeWhile (fun d => decide (d ≠ brOpen ∧ d ≠ brClose)) ++ [brClose]))
          :: (replBr (idx + 1) rest).2) := by
  have hl : (d :: rest).length ≤ cs.length := by
    rw [← hdw]
    exact (List.dropWhile_suffix _).length_le
  simp only [List.length_cons] at hl
  show replBrAux (c :: cs).length idx (c :: cs) = _
  simp only [List.length_cons, replBrAux]
  rw [if_pos hc, hdw]
  dsimp only
  rw [if_pos hd]
  rw [replBrAux_congr cs.length rest.length (idx + 1) rest (by omega) (Nat.le_refl _)]
  rfl

/-! ### No dictionary term survives protection -/

theorem not_pre_replBr :
    ∀ n (s σ : List Char) idx, s.length ≤ n → σ ≠ [] → '_' ∉ σ → ¬ σ <+: s →
      ¬ σ <+: (replBr idx s).1 := by
  intro n
  induction n with
  | zero =>
    intro s σ idx hlen hσ _ _
    have hnil : s = [] := List.eq_nil_of_length_eq_zero (Nat.le_zero.mp hlen)
    subst hnil
    rw [replBr_nil]
    exact fun hy => hσ (List.prefix_nil.mp hy)
  | succ n ih =>
    intro s σ idx hlen hσ hσu hpre
    cases s with
    | nil =>
      rw [replBr_nil]
      exact fun hy => hσ (List.prefix_nil.mp hy)
    | cons c cs =>
      simp only [List.length_cons] at hlen
      have hstep : σ <+: (replBr idx (c :: cs)).1 → False := by
        intro hcon
        by_cases hc : c = brOpen
        · cases hdw : cs.dropWhile (fun d => decide (d ≠ brOpen ∧ d ≠ brClose)) with
          | nil =>
            rw [replBr_cons_open_nil idx hc hdw] at hcon
            cases σ with
            | nil => exact hσ rfl
            | cons e σ' =>
              obtain ⟨hec, hσ'⟩ := List.cons_prefix_cons.mp hcon
              by_cases hσ'nil : σ' = []
              · exact hpre (by
                  subst hσ'nil
                  exact List.cons_prefix_cons.mpr ⟨hec, List.nil_prefix⟩)
              · have hnp : ¬ σ' <+: cs := fun hh =>
                  hpre (List.cons_prefix_cons.mpr ⟨hec, hh⟩)
                exact ih cs σ' idx (by omega) hσ'nil
                  (fun hmem => hσu (List.mem_cons_of_mem _ hmem)) hnp hσ'
          | cons d rest =>
            by_cases hd : d = brClose
            · rw [replBr_cons_open_close idx hc hdw hd] at hcon
              obtain ⟨t, htk⟩ := fixedToken_head idx
              rw [htk, List.cons_append] at hcon
              cases σ with
              | nil => exact hσ rfl
              | cons e σ' =>
                have he : e = '_' := (List.cons_prefix_cons.mp hcon).1
                exact hσu (by rw [← he]; exact List.mem_cons_self _ _)
            · rw [replBr_cons_open_noclose idx hc hdw hd] at hcon
              cases σ with
              | nil => exact hσ rfl
              | cons e σ' =>
                obtain ⟨hec, hσ'⟩ := List.cons_prefix_cons.mp hcon
                by_cases hσ'nil : σ' = []
                · exact hpre (by
                    subst hσ'nil
                    exact List.cons_prefix_cons.mpr ⟨hec, List.nil_prefix⟩)
                · have hnp : ¬ σ' <+: cs := fun hh =>
                    hpre (List.cons_prefix_cons.mpr ⟨hec, hh⟩)
                  exact ih cs σ' idx (by omega) hσ'nil
                    (fun hmem => hσu (List.mem_cons_of_mem _ hmem)) hnp hσ'
        · rw [replBr_cons_other idx hc] at hcon
          cases σ with
          | nil => exact hσ rfl
          | cons e σ' =>
            obtain ⟨hec, hσ'⟩ := List.cons_prefix_cons.mp hcon
            by_cases hσ'nil : σ' = []
            · exact hpre (by
                subst hσ'nil
                exact List.cons_prefix_cons.mpr ⟨hec, List.nil_prefix⟩)
            · have hnp : ¬ σ' <+: cs := fun hh =>
                hpre (List.cons_prefix_cons.mpr ⟨hec, hh⟩)
              exact ih cs σ' idx (by omega) hσ'nil
                (fun hmem => hσu (List.mem_cons_of_mem _ hmem)) hnp hσ'
      exact hstep

theorem replBr_preserves_absent :
    ∀ n (s q : List Char) idx, s.length ≤ n →
      q ≠ [] → '_' ∉ q → (∃ c ∈ q, isTokChar c = false) →
      ¬ q <:+: s → ¬ q <:+: (replBr idx s).1 := by
  intro n
  induction n with
  | zero =>
    intro s q idx hlen _ _ _ habs
    have hnil : s = [] := List.eq_nil_of_length_eq_zero (Nat.le_zero.mp hlen)
    subst hnil
    rw [replBr_nil]
    exact habs
  | succ n ih =>
    intro s q idx hlen hq0 hqu hex habs
    cases s with
    | nil =>
      rw [replBr_nil]
      exact habs
    | cons c cs =>
      simp only [List.length_cons] at hlen
      have hsubcase : ∀ out2, replBr idx (c :: cs) = (c :: (replBr idx cs).1, out2) →
          ¬ q <:+: (replBr idx (c :: cs)).1 := by
        intro out2 heq
        rw [heq]
        intro hinf
        rcases List.infix_cons_iff.mp hinf with hpre | htail
        · cases q with
          | nil => exact hq0 rfl
          | cons e q' =>
            obtain ⟨hec, hq'⟩ := List.cons_prefix_cons.mp hpre
            by_cases hq'nil : q' = []
            · exact habs (List.IsPrefix.isInfix (by
                subst hq'nil
                exact List.cons_prefix_cons.mpr ⟨hec, List.nil_prefix⟩))
            · have hnq : ¬ q' <+: cs := fun hh =>
                habs (List.IsPrefix.isInfix (List.cons_prefix_cons.mpr ⟨hec, hh⟩))
              exact not_pre_replBr cs.length cs q' idx (Nat.le_refl _) hq'nil
                (fun hmem => hqu (List.mem_cons_of_mem _ hmem)) hnq hq'
        · exact ih cs q idx (by omega) hq0 hqu hex
            (fun hh => habs (List.infix_cons hh)) htail
      by_cases hc : c = brOpen
      · cases hdw : cs.dropWhile (fun d => decide (d ≠ brOpen ∧ d ≠ brClose)) with
        | nil => exact hsubcase _ (replBr_cons_open_nil idx hc hdw)
        | cons d rest =>
          by_cases hd : d = brClose
          · rw [replBr_cons_open_close idx hc hdw hd]
            intro hinf
            rcases infix_append_cases hinf with h1 | h2 | ⟨q1, q2, hq, h1ne, _, hsuf, _⟩
            · obtain ⟨ch, hcp, hct⟩ := hex
              rw [fixedToken_tokChars (h1.subset hcp)] at hct
              exact Bool.noConfusion hct
            · have hrest : rest <:+ cs := by
                have h1 : d :: rest <:+ cs := by
                  rw [← hdw]
                  exact List.dropWhile_suffix _
                exact (List.suffix_cons d rest).trans h1
              have hlr : rest.length ≤ n := by
                have := hrest.length_le
                omega
              have habs' : ¬ q <:+: rest :=
                fun hh => habs (List.infix_cons (hh.trans hrest.isInfix))
              exact ih rest q (idx + 1) hlr hq0 hqu hex habs' h2
            · obtain ⟨t, htk⟩ := fixedToken_snoc idx
              rw [htk] at hsuf
              have : '_' ∈ q1 := last_mem_of_suffix hsuf h1ne
              exact hqu (by rw [hq]; exact List.mem_append.mpr (Or.inl this))
          · exact hsubcase _ (replBr_cons_open_noclose idx hc hdw hd)
      · exact hsubcase _ (replBr_cons_other idx hc)

theorem dictPass_preserves_absent :
    ∀ (entries : List (List Char × List Char)) idx (s q : List Char),
      q ≠ [] → '_' ∉ q → (∃ c ∈ q, isTokChar c = false) →
      ¬ q <:+: s → ¬ q <:+: (dictPass entries idx s).1 := by
  intro entries
  induction entries with
  | nil =>
    intro idx s q _ _ _ habs
    exact habs
  | cons e rest ih =>
    intro idx s q hq0 hqu hex habs
    obtain ⟨kor, eng⟩ := e
    by_cases hocc : kor <:+: s
    · simp only [dictPass, if_pos hocc]
      refine ih _ _ _ hq0 hqu hex ?_
      obtain ⟨ch, hcp, hct⟩ := hex
      exact replaceAll_preserves_absent kor (fixedToken idx) q
        (fixedToken_head idx) (fixedToken_snoc idx) hq0 hqu
        ⟨ch, hcp, fun hmem => by
          rw [fixedToken_tokChars hmem] at hct
          exact Bool.noConfusion hct⟩
        s.length s (Nat.le_refl _) habs
    · simp only [dictPass, if_neg hocc]
      exact ih _ _ _ hq0 hqu hex habs

theorem dictPass_removes_key :
    ∀ (entries : List (List Char × List Char)) idx (s : List Char),
      (∀ e ∈ entries, e.1 ≠ [] ∧ '_' ∉ e.1 ∧ ∃ c ∈ e.1, isTokChar c = false) →
      ∀ e ∈ entries, ¬ e.1 <:+: (dictPass entries idx s).1 := by
  intro entries
  induction entries with
  | nil =>
    intro idx s _ e he
    exact absurd he (List.not_mem_nil e)
  | cons hd rest ih =>
    intro idx s hAll e he
    obtain ⟨kor, eng⟩ := hd
    obtain ⟨hkor0, hkoru, hkorex⟩ := hAll (kor, eng) (List.mem_cons_self _ _)
    have hkorex' : ∀ i : Nat, ∃ c ∈ kor, c ∉ fixedToken i := by
      intro i
      obtain ⟨ch, hcp, hct⟩ := hkorex
      exact ⟨ch, hcp, fun hmem => by
        rw [fixedToken_tokChars hmem] at hct
        exact Bool.noConfusion hct⟩
    rcases List.mem_cons.mp he with heq | hmem
    · subst heq
      show ¬ kor <:+: (dictPass ((kor, eng) :: rest) idx s).1
      by_cases hocc : kor <:+: s
      · simp only [dictPass, if_pos hocc]
        refine dictPass_preserves_absent rest _ _ _ hkor0 hkoru hkorex ?_
        exact replaceAll_removes kor (fixedToken idx) hkor0 (fixedToken_head idx)
          (fixedToken_snoc idx) hkoru (hkorex' idx) s.length s (Nat.le_refl _)
      · simp only [dictPass, if_neg hocc]
        exact dictPass_preserves_absent rest _ _ _ hkor0 hkoru hkorex hocc
    · have hAll' : ∀ e ∈ rest, e.1 ≠ [] ∧ '_' ∉ e.1 ∧ ∃ c ∈ e.1, isTokChar c = false :=
        fun e he => hAll e (List.mem_cons_of_mem _ he)
      by_cases hocc : kor <:+: s
      · simp only [dictPass, if_pos hocc]
        exact ih _ _ hAll' e hmem
      · simp only [dictPass, if_neg hocc]
        exact ih _ _ hAll' e hmem

/-! ### The sorted dictionary is a permutation of the source dictionary -/

theorem insertByLen_perm (x : List Char × List Char) :
    ∀ l, (insertByLen x l).Perm (x :: l) := by
  intro l
  induction l with
  | nil => exact List.Perm.refl _
  | cons y ys ih =>
    simp only [insertByLen]
    by_cases h : y.1.length < x.1.length
    · rw [if_pos h]
    · rw [if_neg h]
      exact (ih.cons y).trans (List.Perm.swap x y ys)

theorem sortByLenDesc_perm (l : List (List Char × List Char)) :
    (sortByLenDesc l).Perm l := by
  suffices h : ∀ (l acc : List (List Char × List Char)),
      (l.foldl (fun acc x => insertByLen x acc) acc).Perm (acc ++ l) by
    have h2 := h l []
    simpa [sortByLenDesc] using h2
  intro l
  induction l with
  | nil => intro acc; simp
  | cons x xs ih =>
    intro acc
    simp only [List.foldl_cons]
    refine (ih (insertByLen x acc)).trans ?_
    refine (((insertByLen_perm x acc).append_right xs).trans ?_)
    exact List.perm_middle.symm

theorem dict_keys_good :
    ∀ e ∈ fixedTranslations, e.1 ≠ [] ∧ '_' ∉ e.1 ∧ ∃ c ∈ e.1, isTokChar c = false := by
  decide

theorem sorted_keys_good :
    ∀ e ∈ fixedTranslationsSorted, e.1 ≠ [] ∧ '_' ∉ e.1 ∧ ∃ c ∈ e.1, isTokChar c = false :=
  fun e he => dict_keys_good e ((sortByLenDesc_perm fixedTranslations).mem_iff.mp he)

/-- No dictionary term occurs in the protected text, for any input. -/
theorem preprocess_no_dict_term :
    ∀ (text : List Char), ∀ e ∈ fixedTranslations,
      ¬ e.1 <:+: (preprocessFixedWords text).1 := by
  intro text e he
  obtain ⟨h0, hu, hex⟩ := dict_keys_good e he
  have hes : e ∈ fixedTranslationsSorted :=
    (sortByLenDesc_perm fixedTranslations).mem_iff.mpr he
  show ¬ e.1 <:+: (replBr (dictPass fixedTranslationsSorted 0 text).2.2
    (dictPass fixedTranslationsSorted 0 text).1).1
  refine replBr_preserves_absent _ _ _ _ (Nat.le_refl _) h0 hu hex ?_
  exact dictPass_removes_key fixedTranslationsSorted 0 text sorted_keys_good e hes

/-- C4: the protector substitutes dictionary terms in decreasing key-length
order (the sorted dictionary is pairwise ordered by non-increasing key
length), and afterwards no dictionary term occurs anywhere in the protected
text — in particular no occurrence of a shorter term such as `챠콜` survives
inside a span covered by a longer term such as `딥챠콜`. -/
theorem c4_longest_match_first :
    List.Pairwise (fun a b => b.1.length ≤ a.1.length) fixedTranslationsSorted ∧
    ∀ (text : List Char), ∀ e ∈ fixedTranslations,
      ¬ e.1 <:+: (preprocessFixedWords text).1 :=
  ⟨by decide, preprocess_no_dict_term⟩

/-- Witness for `c4_longest_match_first`: after protecting a text holding
both `딥챠콜` and `챠콜`, no occurrence of the shorter term remains. -/
theorem c4_longest_match_first_witness :
    ¬ ("챠콜".data <:+: (preprocessFixedWords c4Input).1) :=
  c4_longest_match_first.2 c4Input ("챠콜".data, "Charcoal".data) (by decide)

/-! ### Placeholder-map key structure -/

theorem dictPass_keys :
    ∀ (entries : List (List Char × List Char)) idx (s : List Char),
      ∃ ixs : List Nat,
        (dictPass entries idx s).2.1.map Prod.fst = ixs.map fixedToken ∧
        List.Pairwise (· < ·) ixs ∧
        (∀ i ∈ ixs, idx ≤ i ∧ i < (dictPass entries idx s).2.2) ∧
        idx ≤ (dictPass entries idx s).2.2 := by
  intro entries
  induction entries with
  | nil =>
    intro idx s
    exact ⟨[], rfl, List.Pairwise.nil, by simp, Nat.le_refl _⟩
  | cons e rest ih =>
    intro idx s
    obtain ⟨kor, eng⟩ := e
    by_cases hocc : kor <:+: s
    · obtain ⟨ixs, hmap, hpw, hbnd, hle⟩ := ih (idx + 1) (replaceAll kor (fixedToken idx) s)
      refine ⟨idx :: ixs, ?_, ?_, ?_, ?_⟩
      · simp only [dictPass, if_pos hocc, List.map_cons]
        rw [hmap]
      · exact List.pairwise_cons.mpr ⟨fun i hi => by have := (hbnd i hi).1; omega, hpw⟩
      · intro i hi
        simp only [dictPass, if_pos hocc]
        rcases List.mem_cons.mp hi with rfl | hi'
        · exact ⟨Nat.le_refl _, by have := hle; omega⟩
        · obtain ⟨h1, h2⟩ := hbnd i hi'
          exact ⟨by omega, h2⟩
      · simp only [dictPass, if_pos hocc]
        omega
    · obtain ⟨ixs, hmap, hpw, hbnd, hle⟩ := ih idx s
      refine ⟨ixs, ?_, hpw, ?_, ?_⟩
      · simp only [dictPass, if_neg hocc]
        exact hmap
      · intro i hi
        simp only [dictPass, if_neg hocc]
        exact hbnd i hi
      · simp only [dictPass, if_neg hocc]
        exact hle

theorem replBr_keys :
    ∀ n (s : List Char) idx, s.length ≤ n →
      ∃ ixs : List Nat,
        (replBr idx s).2.map Prod.fst = ixs.map fixedToken ∧
        List.Pairwise (· < ·) ixs ∧ (∀ i ∈ ixs, idx ≤ i) := by
  intro n
  induction n with
  | zero =>
    intro s idx hlen
    have hnil : s = [] := List.eq_nil_of_length_eq_zero (Nat.le_zero.mp hlen)
    subst hnil
    exact ⟨[], rfl, List.Pairwise.nil, by simp⟩
  | succ n ih =>
    intro s idx hlen
    cases s with
    | nil => exact ⟨[], rfl, List.Pairwise.nil, by simp⟩
    | cons c cs =>
      simp only [List.length_cons] at hlen
      by_cases hc : c = brOpen
      · cases hdw : cs.dropWhile (fun d => decide (d ≠ brOpen ∧ d ≠ brClose)) with
        | nil =>
          obtain ⟨ixs, hmap, hpw, hbnd⟩ := ih cs idx (by omega)
          exact ⟨ixs, by rw [replBr_cons_open_nil idx hc hdw]; exact hmap, hpw, hbnd⟩
        | cons d rest =>
          by_cases hd : d = brClose
          · have hrest : rest.length ≤ n := by
              have h1 : (d :: rest).length ≤ cs.length := by
                rw [← hdw]
                exact (List.dropWhile_suffix _).length_le
              simp only [List.length_cons] at h1
              omega
            obtain ⟨ixs, hmap, hpw, hbnd⟩ := ih rest (idx + 1) hrest
            refine ⟨idx :: ixs, ?_, ?_, ?_⟩
            · rw [replBr_cons_open_close idx hc hdw hd]
              simp only [List.map_cons]
              rw [hmap]
            · exact List.pairwise_cons.mpr
                ⟨fun i hi => by have := hbnd i hi; omega, hpw⟩
            · intro i hi
              rcases List.mem_cons.mp hi with rfl | hi'
              · exact Nat.le_refl _
              · have := hbnd i hi'
                omega
          · obtain ⟨ixs, hmap, hpw, hbnd⟩ := ih cs idx (by omega)
            exact ⟨ixs, by rw [replBr_cons_open_noclose idx hc hdw hd]; exact hmap,
              hpw, hbnd⟩
      · obtain ⟨ixs, hmap, hpw, hbnd⟩ := ih cs idx (by omega)
        exact ⟨ixs, by rw [replBr_cons_other idx hc]; exact hmap, hpw, hbnd⟩

/-- The keys of the full placeholder map are the tokens of a strictly
increasing index list. -/
theorem preprocess_keys (text : List Char) :
    ∃ ixs : List Nat,
      (preprocessFixedWords text).2.map Prod.fst = ixs.map fixedToken ∧
      List.Pairwise (· < ·) ixs := by
  obtain ⟨ixs1, hmap1, hpw1, hbnd1, _⟩ := dictPass_keys fixedTranslationsSorted 0 text
  obtain ⟨ixs2, hmap2, hpw2, hbnd2⟩ :=
    replBr_keys (dictPass fixedTranslationsSorted 0 text).1.length
      (dictPass fixedTranslationsSorted 0 text).1
      (dictPass fixedTranslationsSorted 0 text).2.2 (Nat.le_refl _)
  refine ⟨ixs1 ++ ixs2, ?_, ?_⟩
  · show ((dictPass fixedTranslationsSorted 0 text).2.1 ++
      (replBr (dictPass fixedTranslationsSorted 0 text).2.2
        (dictPass fixedTranslationsSorted 0 text).1).2).map Prod.fst = _
    rw [List.map_append, hmap1, hmap2, List.map_append]
  · rw [List.pairwise_append]
    exact ⟨hpw1, hpw2, fun a ha b hb => by
      have h1 := (hbnd1 a ha).2
      have h2 := hbnd2 b hb
      omega⟩

/-- All tokens in the placeholder map are pairwise distinct. -/
theorem preprocess_keys_distinct (text : List Char) :
    List.Pairwise (· ≠ ·) ((preprocessFixedWords text).2.map Prod.fst) := by
  obtain ⟨ixs, hmap, hpw⟩ := preprocess_keys text
  rw [hmap, List.pairwise_map]
  exact hpw.imp (fun hij he => by
    have := fixedToken_inj he
    omega)

/-- C5 counterexample: on `챠콜 챠콜` the protector replaces both occurrences
of the term by the *same* token `__FIXED_0__` and records a single map
entry, instead of giving each occurrence its own fresh token. -/
theorem c5_counterexample :
    (preprocessFixedWords c5Input).1 = fixedToken 0 ++ ' ' :: fixedToken 0 ∧
    (preprocessFixedWords c5Input).2 = [(fixedToken 0, "Charcoal".data)] := by
  decide

/-- C5 amended: tokens in the placeholder map never collide (the map keys
are pairwise distinct for every input), but the protector reuses one fresh
token per distinct dictionary term for all occurrences of that term (as on
`챠콜 챠콜`); only the ｟｠-bracket spans get a fresh token per occurrence
(as on `｟a｠｟a｠`). -/
theorem c5_amended :
    (∀ text : List Char,
      List.Pairwise (· ≠ ·) ((preprocessFixedWords text).2.map Prod.fst)) ∧
    (preprocessFixedWords c5Input).2.length = 1 ∧
    (preprocessFixedWords c5Input).1 = fixedToken 0 ++ ' ' :: fixedToken 0 ∧
    (preprocessFixedWords c5BrInput).2 =
      [(fixedToken 0, "｟a｠".data), (fixedToken 1, "｟a｠".data)] :=
  ⟨preprocess_keys_distinct, by decide, by decide, by decide⟩

/-! ### Card state machine lemmas -/

theorem updateFirst_cons (p : SlackBlock → Bool) (f : SlackBlock → SlackBlock)
    (b : SlackBlock) (bs : List SlackBlock) :
    updateFirst p f (b :: bs) = if p b then f b :: bs else b :: updateFirst p f bs :=
  rfl

theorem updateFirst_idem (p : SlackBlock → Bool) (f : SlackBlock → SlackBlock)
    (hpf : ∀ b, p (f b) = p b) (hff : ∀ b, f (f b) = f b) :
    ∀ l, updateFirst p f (updateFirst p f l) = updateFirst p f l := by
  intro l
  induction l with
  | nil => rfl
  | cons b bs ih =>
    simp only [updateFirst]
    by_cases hp : p b = true
    · rw [if_pos hp]
      simp only [updateFirst]
      rw [if_pos (by rw [hpf b]; exact hp), hff]
    · rw [if_neg hp]
      simp only [updateFirst]
      rw [if_neg hp, ih]

theorem updateFirst_ne_nil (p : SlackBlock → Bool) (f : SlackBlock → SlackBlock)
    (l : List SlackBlock) (h : l ≠ []) : updateFirst p f l ≠ [] := by
  cases l with
  | nil => exact absurd rfl h
  | cons b bs =>
    simp only [updateFirst]
    split <;> simp

theorem modifyLast_cons (g : SlackBlock → SlackBlock) (b : SlackBlock)
    (l : List SlackBlock) (h : l ≠ []) :
    modifyLast g (b :: l) = b :: modifyLast g l := by
  cases l with
  | nil => exact absurd rfl h
  | cons b2 bs => rfl

theorem modifyLast_ne_nil (g : SlackBlock → SlackBlock) (l : List SlackBlock)
    (h : l ≠ []) : modifyLast g l ≠ [] := by
  cases l with
  | nil => exact absurd rfl h
  | cons b bs =>
    cases bs with
    | nil => simp [modifyLast]
    | cons b2 bs2 => simp [modifyLast]

theorem updateFirst_modifyLast_comm (p : SlackBlock → Bool)
    (f g : SlackBlock → SlackBlock)
    (hpg : ∀ b, p (g b) = p b) (hfg : ∀ b, f (g b) = g (f b)) :
    ∀ l, updateFirst p f (modifyLast g l) = modifyLast g (updateFirst p f l) := by
  intro l
  induction l with
  | nil => rfl
  | cons b bs ih =>
    cases bs with
    | nil =>
      show updateFirst p f [g b] = modifyLast g (updateFirst p f [b])
      simp only [updateFirst]
      by_cases hp : p b = true
      · rw [if_pos (by rw [hpg b]; exact hp), if_pos hp]
        show [f (g b)] = modifyLast g [f b]
        rw [hfg]
        rfl
      · rw [if_neg (by rw [hpg b]; exact hp), if_neg hp]
        rfl
    | cons b2 bs2 =>
      show updateFirst p f (b :: modifyLast g (b2 :: bs2)) =
        modifyLast g (updateFirst p f (b :: b2 :: bs2))
      by_cases hp : p b = true
      · conv_lhs => rw [updateFirst_cons, if_pos hp]
        conv_rhs => rw [updateFirst_cons, if_pos hp]
        rfl
      · conv_lhs => rw [updateFirst_cons, if_neg hp]
        conv_rhs => rw [updateFirst_cons, if_neg hp]
        rw [ih, modifyLast_cons _ _ _ (updateFirst_ne_nil p f (b2 :: bs2) (by simp))]

theorem modifyLast_idem (g : SlackBlock → SlackBlock) (hgg : ∀ b, g (g b) = g b) :
    ∀ l, modifyLast g (modifyLast g l) = modifyLast g l := by
  intro l
  induction l with
  | nil => rfl
  | cons b bs ih =>
    cases bs with
    | nil =>
      show modifyLast g [g b] = [g b]
      show [g (g b)] = [g b]
      rw [hgg]
    | cons b2 bs2 =>
      rw [modifyLast_cons _ _ _ (by simp),
        modifyLast_cons _ _ _ (modifyLast_ne_nil g (b2 :: bs2) (by simp)), ih]

theorem modifyLast_getLastQ (g : SlackBlock → SlackBlock) :
    ∀ l : List SlackBlock, (modifyLast g l).getLast? = l.getLast?.map g := by
  intro l
  induction l with
  | nil => rfl
  | cons b bs ih =>
    cases bs with
    | nil => rfl
    | cons b2 bs2 =>
      have hne := modifyLast_ne_nil g (b2 :: bs2) (by simp)
      rw [modifyLast_cons _ _ _ (by simp)]
      cases hx : modifyLast g (b2 :: bs2) with
      | nil => exact absurd hx hne
      | cons y ys =>
        rw [List.getLast?_cons_cons, ← hx, ih, List.getLast?_cons_cons]

theorem applyStatus_some {blocks out : List SlackBlock} {statusText uid : List Char}
    (h : applyStatus blocks statusText uid = some out) :
    out = modifyLast (setFirstElement (assigneeText uid))
        (updateStatusBlock blocks statusText) ∧
    ∃ lb, (updateStatusBlock blocks statusText).getLast? = some lb ∧
      lb.elements ≠ [] := by
  unfold applyStatus at h
  cases hL : (updateStatusBlock blocks statusText).getLast? with
  | none =>
    rw [hL] at h
    exact absurd h (by simp)
  | some lb =>
    rw [hL] at h
    dsimp only at h
    by_cases hE : lb.elements = []
    · rw [if_pos hE] at h
      exact absurd h (by simp)
    · rw [if_neg hE] at h
      exact ⟨(Option.some.inj h).symm, lb, rfl, hE⟩

/-- C8: the status handlers are idempotent: if one application of a status
transition produces a card, applying the same transition to that card again
returns it unchanged — in particular its status indicator text and assignee
line equal those after the single application. -/
theorem c8_status_idempotent :
    ∀ (blocks b1 : List SlackBlock) (statusText uid : List Char),
      applyStatus blocks statusText uid = some b1 →
      applyStatus b1 statusText uid = some b1 := by
  intro blocks b1 stext uid h
  obtain ⟨hb1, lb, hL, hE⟩ := applyStatus_some h
  have h1 : updateStatusBlock b1 stext = b1 := by
    rw [hb1]
    unfold updateStatusBlock
    rw [updateFirst_modifyLast_comm
        (fun b : SlackBlock => decide (b.blockId = some ("status_section".data)))
        (fun b => { b with btext := stext })
        (setFirstElement (assigneeText uid)) (fun b => rfl) (fun b => rfl),
      updateFirst_idem
        (fun b : SlackBlock => decide (b.blockId = some ("status_section".data)))
        (fun b => { b with btext := stext }) (fun b => rfl) (fun b => rfl)]
  have h2 : b1.getLast? = some (setFirstElement (assigneeText uid) lb) := by
    rw [hb1, modifyLast_getLastQ, hL]
    rfl
  have h4 : modifyLast (setFirstElement (assigneeText uid)) b1 = b1 := by
    rw [hb1, modifyLast_idem (setFirstElement (assigneeText uid)) (fun b => rfl)]
  show (match (updateStatusBlock b1 stext).getLast? with
    | none => none
    | some lb =>
      if lb.elements = [] then none
      else some (modifyLast (setFirstElement (assigneeText uid))
        (updateStatusBlock b1 stext))) = some b1
  rw [h1, h2]
  show (if (setFirstElement (assigneeText uid) lb).elements = [] then none
    else some (modifyLast (setFirstElement (assigneeText uid)) b1)) = some b1
  rw [if_neg (by simp [setFirstElement]), h4]

/-- Witness for `c8_status_idempotent`: a second `status_completed` press on
the already-completed sample card leaves it unchanged. -/
theorem c8_status_idempotent_witness :
    applyStatus sampleCardCompleted statusCompletedText "U2".data =
      some sampleCardCompleted :=
  c8_status_idempotent sampleCard sampleCardCompleted statusCompletedText
    "U2".data (by decide)

theorem updateFirst_length (p : SlackBlock → Bool) (f : SlackBlock → SlackBlock) :
    ∀ l, (updateFirst p f l).length = l.length := by
  intro l
  induction l with
  | nil => rfl
  | cons b bs ih =>
    rw [updateFirst_cons]
    by_cases hp : p b = true
    · rw [if_pos hp]
      simp
    · rw [if_neg hp]
      simp only [List.length_cons, ih]

theorem modifyLast_length (g : SlackBlock → SlackBlock) :
    ∀ l, (modifyLast g l).length = l.length := by
  intro l
  induction l with
  | nil => rfl
  | cons b bs ih =>
    cases bs with
    | nil => rfl
    | cons b2 bs2 =>
      rw [modifyLast_cons _ _ _ (by simp)]
      simp only [List.length_cons, ih]

theorem updateFirst_getElemQ (p : SlackBlock → Bool) (f : SlackBlock → SlackBlock) :
    ∀ (l : List SlackBlock) (i : Nat),
      (∀ b, l[i]? = some b → p b = false) →
      (updateFirst p f l)[i]? = l[i]? := by
  intro l
  induction l with
  | nil => intro i _; rfl
  | cons b bs ih =>
    intro i hni
    rw [updateFirst_cons]
    by_cases hp : p b = true
    · cases i with
      | zero =>
        have := hni b (by simp)
        rw [this] at hp
        exact Bool.noConfusion hp
      | succ j =>
        rw [if_pos hp]
        simp
    · rw [if_neg hp]
      cases i with
      | zero => simp
      | succ j =>
        simp only [List.getElem?_cons_succ]
        exact ih j (fun b hb => hni b (by simpa using hb))

theorem modifyLast_getElemQ (g : SlackBlock → SlackBlock) :
    ∀ (l : List SlackBlock) (i : Nat), i + 1 ≠ l.length →
      (modifyLast g l)[i]? = l[i]? := by
  intro l
  induction l with
  | nil => intro i _; rfl
  | cons b bs ih =>
    intro i hi
    cases bs with
    | nil =>
      cases i with
      | zero => exact absurd rfl hi
      | succ j => simp [modifyLast]
    | cons b2 bs2 =>
      rw [modifyLast_cons _ _ _ (by simp)]
      cases i with
      | zero => simp
      | succ j =>
        simp only [List.getElem?_cons_succ]
        exact ih j (by simpa using hi)

/-- C9 (frame property): a status event only changes the status-indicator
block and the trailing assignee block: the block list keeps its length, and
every block that is not the final block and does not carry the
`status_section` block id — in particular the design-request and
image-request sections — is byte-identical to its state before the event. -/
theorem c9_frame_effect :
    ∀ (blocks out : List SlackBlock) (statusText uid : List Char),
      applyStatus blocks statusText uid = some out →
      out.length = blocks.length ∧
      ∀ i : Nat, i + 1 ≠ blocks.length →
        (blocks[i]?.bind SlackBlock.blockId) ≠ some ("status_section".data) →
        out[i]? = blocks[i]? := by
  intro blocks out stext uid h
  obtain ⟨hout, lb, hL, hE⟩ := applyStatus_some h
  have hlen : out.length = blocks.length := by
    rw [hout, modifyLast_length]
    unfold updateStatusBlock
    rw [updateFirst_length]
  refine ⟨hlen, ?_⟩
  intro i hi hid
  have hulen : (updateStatusBlock blocks stext).length = blocks.length := by
    unfold updateStatusBlock
    rw [updateFirst_length]
  rw [hout, modifyLast_getElemQ _ _ i (by rw [hulen]; exact hi)]
  unfold updateStatusBlock
  apply updateFirst_getElemQ
  intro b hb
  rw [hb] at hid
  simp only [Option.bind_some] at hid
  simpa using hid

/-- Witness for `c9_frame_effect`: a `status_needs_revision` event on the
sample card leaves the design-requests section block (index 3) byte-identical
and preserves the block count. -/
theorem c9_frame_effect_witness :
    sampleCardRevised.length = sampleCard.length ∧
      sampleCardRevised[3]? = sampleCard[3]? := by
  have h := c9_frame_effect sampleCard sampleCardRevised statusNeedsRevisionText
    "U2".data (by decide)
  exact ⟨h.1, h.2 3 (by decide) (by decide)⟩

/-! ### Trim and line-splitting lemmas -/

theorem splitNl_ne_nil : ∀ l : List Char, splitNl l ≠ [] := by
  intro l
  cases l with
  | nil => simp [splitNl]
  | cons c cs =>
    simp only [splitNl]
    cases splitNl cs with
    | nil => simp
    | cons h t =>
      dsimp only
      by_cases hc : c = '\n'
      · rw [if_pos hc]; simp
      · rw [if_neg hc]; simp

theorem splitNl_no_nl : ∀ (t : List Char), ∀ l ∈ splitNl t, '\n' ∉ l := by
  intro t
  induction t with
  | nil =>
    intro l hl
    simp only [splitNl, List.mem_singleton] at hl
    subst hl
    simp
  | cons c cs ih =>
    intro l hl
    simp only [splitNl] at hl
    cases hsp : splitNl cs with
    | nil => exact absurd hsp (splitNl_ne_nil cs)
    | cons h t =>
      rw [hsp] at hl
      dsimp only at hl
      by_cases hc : c = '\n'
      · rw [if_pos hc] at hl
        rcases List.mem_cons.mp hl with rfl | hl'
        · simp
        · exact ih l (by rw [hsp]; exact hl')
      · rw [if_neg hc] at hl
        rcases List.mem_cons.mp hl with rfl | hl'
        · intro hmem
          rcases List.mem_cons.mp hmem with h1 | h2
          · exact hc h1.symm
          · exact ih h (by rw [hsp]; exact List.mem_cons_self _ _) h2
        · exact ih l (by rw [hsp]; exact List.mem_cons_of_mem _ hl')

theorem splitNl_of_no_nl : ∀ l : List Char, '\n' ∉ l → splitNl l = [l] := by
  intro l
  induction l with
  | nil => intro _; rfl
  | cons c cs ih =>
    intro hnl
    have hc : c ≠ '\n' := fun h => hnl (by rw [h]; exact List.mem_cons_self _ _)
    have hcs : '\n' ∉ cs := fun h => hnl (List.mem_cons_of_mem _ h)
    simp only [splitNl, ih hcs]
    rw [if_neg hc]

theorem splitNl_append_nl :
    ∀ (l t : List Char), '\n' ∉ l → splitNl (l ++ '\n' :: t) = l :: splitNl t := by
  intro l
  induction l with
  | nil =>
    intro t _
    simp only [List.nil_append, splitNl]
    cases hsp : splitNl t with
    | nil => exact absurd hsp (splitNl_ne_nil t)
    | cons h t' =>
      dsimp only
      simp
  | cons c cs ih =>
    intro t hnl
    have hc : c ≠ '\n' := fun h => hnl (by rw [h]; exact List.mem_cons_self _ _)
    have hcs : '\n' ∉ cs := fun h => hnl (List.mem_cons_of_mem _ h)
    show splitNl (c :: (cs ++ '\n' :: t)) = _
    simp only [splitNl]
    rw [ih t hcs]
    dsimp only
    rw [if_neg hc]

theorem joinNl_cons_cons (l l2 : List Char) (rest : List (List Char)) :
    joinNl (l :: l2 :: rest) = l ++ '\n' :: joinNl (l2 :: rest) := rfl

theorem splitNl_joinNl :
    ∀ ls : List (List Char), ls ≠ [] → (∀ l ∈ ls, '\n' ∉ l) →
      splitNl (joinNl ls) = ls := by
  intro ls
  induction ls with
  | nil => intro h _; exact absurd rfl h
  | cons l rest ih =>
    intro _ hnl
    cases rest with
    | nil =>
      show splitNl l = [l]
      exact splitNl_of_no_nl l (hnl l (List.mem_cons_self _ _))
    | cons l2 rest2 =>
      rw [joinNl_cons_cons,
        splitNl_append_nl _ _ (hnl l (List.mem_cons_self _ _)),
        ih (by simp) (fun x hx => hnl x (List.mem_cons_of_mem _ hx))]

theorem joinNl_snoc :
    ∀ (ls : List (List Char)) (t : List Char), ls ≠ [] →
      joinNl (ls ++ [t]) = joinNl ls ++ '\n' :: t := by
  intro ls
  induction ls with
  | nil => intro t h; exact absurd rfl h
  | cons l rest ih =>
    intro t _
    cases rest with
    | nil => rfl
    | cons l2 rest2 =>
      show joinNl (l :: ((l2 :: rest2) ++ [t])) = _
      rw [show (l2 :: rest2) ++ [t] = l2 :: (rest2 ++ [t]) from rfl]
      rw [joinNl_cons_cons, joinNl_cons_cons]
      rw [show l2 :: (rest2 ++ [t]) = (l2 :: rest2) ++ [t] from rfl]
      rw [ih t (by simp)]
      simp

theorem head_dropWhile_ws (p : Char → Bool) :
    ∀ (l : List Char) (c : Char), (l.dropWhile p).head? = some c → p c = false := by
  intro l
  induction l with
  | nil => intro c hc; simp [List.dropWhile] at hc
  | cons d ds ih =>
    intro c hc
    by_cases hd : p d = true
    · rw [List.dropWhile_cons_of_pos hd] at hc
      exact ih c hc
    · rw [List.dropWhile_cons_of_neg hd] at hc
      simp only [List.head?_cons, Option.some.injEq] at hc
      rw [← hc]
      exact Bool.eq_false_iff.mpr hd

theorem headQ_of_pre {u v : List Char} (h : u <+: v) {c : Char}
    (hc : u.head? = some c) : v.head? = some c := by
  obtain ⟨t, rfl⟩ := h
  cases u with
  | nil => simp at hc
  | cons d ds =>
    simp only [List.head?_cons, Option.some.injEq] at hc
    simp [hc]

theorem trimChars_pre_dropWhile (l : List Char) :
    trimChars l <+: l.dropWhile Char.isWhitespace := by
  unfold trimChars
  have h1 : (l.dropWhile Char.isWhitespace).reverse.dropWhile Char.isWhitespace <:+
      (l.dropWhile Char.isWhitespace).reverse := List.dropWhile_suffix _
  have h2 := List.reverse_prefix.mpr h1
  rwa [List.reverse_reverse] at h2

theorem trimChars_head_ws (l : List Char) :
    ∀ c, (trimChars l).head? = some c → Char.isWhitespace c = false := by
  intro c hc
  have h1 : (l.dropWhile Char.isWhitespace).head? = some c :=
    headQ_of_pre (trimChars_pre_dropWhile l) hc
  exact head_dropWhile_ws _ l c h1

theorem trimChars_last_ws (l : List Char) :
    ∀ c, (trimChars l).getLast? = some c → Char.isWhitespace c = false := by
  intro c hc
  unfold trimChars at hc
  rw [List.getLast?_reverse] at hc
  exact head_dropWhile_ws _ _ c hc

theorem trimChars_eq_self {l : List Char}
    (h1 : ∀ c, l.head? = some c → Char.isWhitespace c = false)
    (h2 : ∀ c, l.getLast? = some c → Char.isWhitespace c = false) :
    trimChars l = l := by
  have hL : l.dropWhile Char.isWhitespace = l := by
    cases l with
    | nil => rfl
    | cons c cs =>
      rw [List.dropWhile_cons_of_neg]
      simp only [List.head?_cons, Option.some.injEq] at h1
      simp [h1 c rfl]
  have hR : l.reverse.dropWhile Char.isWhitespace = l.reverse := by
    cases hrev : l.reverse with
    | nil => rfl
    | cons c cs =>
      rw [List.dropWhile_cons_of_neg]
      have : l.getLast? = some c := by
        rw [← List.head?_reverse, hrev]
        rfl
      simp [h2 c this]
  unfold trimChars
  rw [hL, hR, List.reverse_reverse]

theorem trimChars_idem (l : List Char) : trimChars (trimChars l) = trimChars l :=
  trimChars_eq_self (trimChars_head_ws l) (trimChars_last_ws l)

theorem mem_trimChars {c : Char} {l : List Char} (h : c ∈ trimChars l) : c ∈ l := by
  have h1 : c ∈ l.dropWhile Char.isWhitespace :=
    (trimChars_pre_dropWhile l).subset h
  exact (List.dropWhile_suffix _).subset h1

/-! ### Field cleanliness invariant of the section parser -/

theorem joinNl_ne_nil {l : List Char} {rest : List (List Char)} (h : l ≠ []) :
    joinNl (l :: rest) ≠ [] := by
  cases rest with
  | nil => exact h
  | cons l2 rest2 =>
    rw [joinNl_cons_cons]
    simp [h]

theorem cleanRep_facts :
    ∀ ls : List (List Char), ls ≠ [] →
      (∀ l ∈ ls, l ≠ [] ∧ '\n' ∉ l ∧ ∃ x, l = trimChars x) →
      joinNl ls ≠ [] ∧
      (∀ c, (joinNl ls).head? = some c → Char.isWhitespace c = false) ∧
      (∀ c, (joinNl ls).getLast? = some c → Char.isWhitespace c = false) := by
  intro ls
  induction ls with
  | nil => intro h _; exact absurd rfl h
  | cons l rest ih =>
    intro _ hgood
    obtain ⟨hl0, _, x, hx⟩ := hgood l (List.mem_cons_self _ _)
    cases rest with
    | nil =>
      refine ⟨hl0, ?_, ?_⟩
      · intro c hc
        rw [hx] at hc
        exact trimChars_head_ws x c hc
      · intro c hc
        rw [hx] at hc
        exact trimChars_last_ws x c hc
    | cons l2 rest2 =>
      obtain ⟨hJ0, _, hJlast⟩ := ih (by simp)
        (fun y hy => hgood y (List.mem_cons_of_mem _ hy))
      rw [joinNl_cons_cons]
      refine ⟨by simp [hl0], ?_, ?_⟩
      · intro c hc
        rw [List.head?_append_of_ne_nil l hl0, hx] at hc
        exact trimChars_head_ws x c hc
      · intro c hc
        rw [List.getLast?_append] at hc
        cases hJ : joinNl (l2 :: rest2) with
        | nil => exact absurd hJ hJ0
        | cons y ys =>
          rw [hJ, List.getLast?_cons_cons] at hc
          obtain ⟨z, hg⟩ : ∃ z, (y :: ys).getLast? = some z := by
            cases hgg : (y :: ys).getLast? with
            | none => exact absurd hgg (by simp)
            | some z => exact ⟨z, rfl⟩
          rw [hg] at hc
          have hzc : z = c := by simpa [Option.or] using hc
          refine hJlast c ?_
          rw [hJ, ← hzc]
          exact hg

theorem trim_of_cleanRep {ls : List (List Char)} (h0 : ls ≠ [])
    (hgood : ∀ l ∈ ls, l ≠ [] ∧ '\n' ∉ l ∧ ∃ x, l = trimChars x) :
    trimChars (joinNl ls) = joinNl ls := by
  obtain ⟨_, hh, hl⟩ := cleanRep_facts ls h0 hgood
  exact trimChars_eq_self hh hl

theorem clean_of_trim {y : List Char} (hy : '\n' ∉ y) : CleanField (trimChars y) := by
  by_cases h : trimChars y = []
  · exact Or.inl h
  · refine Or.inr ⟨[trimChars y], by simp, ?_, rfl⟩
    intro l hl
    rw [List.mem_singleton] at hl
    subst hl
    exact ⟨h, fun hmem => hy (mem_trimChars hmem), y, rfl⟩

theorem clean_append {f line : List Char} (hf : CleanField f) (hl : '\n' ∉ line)
    (hne : trimChars line ≠ []) :
    CleanField (f ++ (if f ≠ [] then '\n' :: trimChars line else trimChars line)) := by
  rcases hf with rfl | ⟨ls, hls0, hgood, rfl⟩
  · rw [if_neg (by simp), List.nil_append]
    exact clean_of_trim hl
  · have hj0 : joinNl ls ≠ [] := by
      cases ls with
      | nil => exact absurd rfl hls0
      | cons l rest =>
        exact joinNl_ne_nil (hgood l (List.mem_cons_self _ _)).1
    rw [if_pos hj0, ← joinNl_snoc ls (trimChars line) hls0]
    refine Or.inr ⟨ls ++ [trimChars line], by simp, ?_, rfl⟩
    intro l hl'
    rcases List.mem_append.mp hl' with h1 | h2
    · exact hgood l h1
    · rw [List.mem_singleton] at h2
      subst h2
      exact ⟨hne, fun hmem => hl (mem_trimChars hmem), line, rfl⟩

theorem parseStep_clean {st : Sections × CurSec} {line : List Char}
    (hline : '\n' ∉ line)
    (ht : CleanField st.1.team) (hm : CleanField st.1.main)
    (hd : CleanField st.1.detail) :
    CleanField (parseStep st line).1.team ∧ CleanField (parseStep st line).1.main ∧
      CleanField (parseStep st line).1.detail := by
  have hdropTeam : '\n' ∉ (trimChars line).drop labelTeam.length :=
    fun hmem => hline (mem_trimChars (List.drop_subset _ _ hmem))
  have hdropMain : '\n' ∉ (trimChars line).drop labelMain.length :=
    fun hmem => hline (mem_trimChars (List.drop_subset _ _ hmem))
  have hdropDetail : '\n' ∉ (trimChars line).drop labelDetail.length :=
    fun hmem => hline (mem_trimChars (List.drop_subset _ _ hmem))
  unfold parseStep
  by_cases h1 : trimChars line = markerNew ∨ trimChars line = markerEdit
  · rw [if_pos h1]
    exact ⟨ht, hm, hd⟩
  rw [if_neg h1]
  by_cases h2 : labelTeam <+: trimChars line
  · rw [if_pos h2]
    exact ⟨clean_of_trim hdropTeam, hm, hd⟩
  rw [if_neg h2]
  by_cases h3 : labelMain <+: trimChars line
  · rw [if_pos h3]
    exact ⟨ht, clean_of_trim hdropMain, hd⟩
  rw [if_neg h3]
  by_cases h4 : labelDetail <+: trimChars line
  · rw [if_pos h4]
    exact ⟨ht, hm, clean_of_trim hdropDetail⟩
  rw [if_neg h4]
  by_cases h5 : st.2 = CurSec.main ∧ trimChars line ≠ []
  · rw [if_pos h5]
    exact ⟨ht, clean_append hm hline h5.2, hd⟩
  rw [if_neg h5]
  by_cases h6 : st.2 = CurSec.detail ∧ trimChars line ≠ []
  · rw [if_pos h6]
    exact ⟨ht, hm, clean_append hd hline h6.2⟩
  rw [if_neg h6]
  exact ⟨ht, hm, hd⟩

theorem parse_fold_clean :
    ∀ (ls : List (List Char)) (st : Sections × CurSec),
      (∀ l ∈ ls, '\n' ∉ l) →
      CleanField st.1.team → CleanField st.1.main → CleanField st.1.detail →
      CleanField (ls.foldl parseStep st).1.team ∧
        CleanField (ls.foldl parseStep st).1.main ∧
        CleanField (ls.foldl parseStep st).1.detail := by
  intro ls
  induction ls with
  | nil => exact fun st _ ht hm hd => ⟨ht, hm, hd⟩
  | cons l rest ih =>
    intro st hnl ht hm hd
    obtain ⟨ht', hm', hd'⟩ :=
      parseStep_clean (hnl l (List.mem_cons_self _ _)) ht hm hd
    exact ih (parseStep st l) (fun x hx => hnl x (List.mem_cons_of_mem _ hx)) ht' hm' hd'

theorem parseStep_marker {l : List Char} (st : Sections × CurSec)
    (h : isMarkerLine l = true) : parseStep st l = st := by
  unfold isMarkerLine at h
  unfold parseStep
  rw [if_pos (of_decide_eq_true h)]

theorem parse_fold_skip_markers :
    ∀ (ls : List (List Char)) (st : Sections × CurSec),
      ls.foldl parseStep st = (ls.filter (fun l => ¬ isMarkerLine l)).foldl parseStep st := by
  intro ls
  induction ls with
  | nil => intro st; rfl
  | cons l rest ih =>
    intro st
    by_cases hm : isMarkerLine l = true
    · rw [List.filter_cons_of_neg (by simp [hm]), List.foldl_cons,
        parseStep_marker st hm, ih]
    · rw [List.filter_cons_of_pos (by simp [hm]), List.foldl_cons, List.foldl_cons, ih]

theorem parseStep_nil_line (st : Sections × CurSec) : parseStep st [] = st := by
  unfold parseStep
  rw [if_neg (by decide), if_neg (by decide), if_neg (by decide), if_neg (by decide),
    if_neg (fun h => h.2 rfl), if_neg (fun h => h.2 rfl)]

/-- C10: every field returned by `parseSections` is trimmed of leading and
trailing whitespace; splitting a non-empty field on newlines yields only
non-empty, individually trimmed lines (never a blank or whitespace-padded
internal line); and input lines equal to the header markers `【신규】` or
`【수정】` contribute nothing to any field even mid-body: parsing the text
with all marker lines removed gives the same result. -/
theorem c10_parser_invariants :
    ∀ text : List Char,
      (trimChars (parseSections text).team = (parseSections text).team ∧
       trimChars (parseSections text).main = (parseSections text).main ∧
       trimChars (parseSections text).detail = (parseSections text).detail) ∧
      ((parseSections text).team ≠ [] →
        ∀ l ∈ splitNl (parseSections text).team, l ≠ [] ∧ trimChars l = l) ∧
      ((parseSections text).main ≠ [] →
        ∀ l ∈ splitNl (parseSections text).main, l ≠ [] ∧ trimChars l = l) ∧
      ((parseSections text).detail ≠ [] →
        ∀ l ∈ splitNl (parseSections text).detail, l ≠ [] ∧ trimChars l = l) ∧
      parseSections text = parseSections (stripMarkerLines text) := by
  intro text
  have hclean := parse_fold_clean (splitNl text) (⟨[], [], []⟩, CurSec.none)
    (splitNl_no_nl text) (Or.inl rfl) (Or.inl rfl) (Or.inl rfl)
  have hfield : ∀ f : List Char, CleanField f →
      (trimChars f ≠ [] → ∀ l ∈ splitNl (trimChars f), l ≠ [] ∧ trimChars l = l) := by
    intro f hf hne
    rcases hf with rfl | ⟨ls, hls0, hgood, rfl⟩
    · exact absurd rfl hne
    · rw [trim_of_cleanRep hls0 hgood,
        splitNl_joinNl ls hls0 (fun l hl => (hgood l hl).2.1)]
      intro l hl
      obtain ⟨h0, _, x, hx⟩ := hgood l hl
      exact ⟨h0, by rw [hx]; exact trimChars_idem x⟩
  have hst : (splitNl text).foldl parseStep (⟨[], [], []⟩, CurSec.none) =
      (splitNl (stripMarkerLines text)).foldl parseStep (⟨[], [], []⟩, CurSec.none) := by
    rw [parse_fold_skip_markers]
    unfold stripMarkerLines
    by_cases hf : (splitNl text).filter (fun l => ¬ isMarkerLine l) = []
    · rw [hf]
      show (⟨⟨[], [], []⟩, CurSec.none⟩ : Sections × CurSec) =
        List.foldl parseStep (⟨⟨[], [], []⟩, CurSec.none⟩ : Sections × CurSec) [[]]
      rw [List.foldl_cons, parseStep_nil_line]
      rfl
    · rw [splitNl_joinNl _ hf
        (fun l hl => splitNl_no_nl text l (List.mem_of_mem_filter hl))]
  refine ⟨⟨trimChars_idem _, trimChars_idem _, trimChars_idem _⟩,
    hfield _ hclean.1, hfield _ hclean.2.1, hfield _ hclean.2.2, ?_⟩
  unfold parseSections
  rw [hst]

/-- Witness for `c10_parser_invariants`: the design-requests field parsed
from a body with padded lines, a blank line and a mid-body marker consists
of non-empty trimmed lines only. -/
theorem c10_parser_invariants_witness :
    ∀ l ∈ splitNl (parseSections c10Input).main, l ≠ [] ∧ trimChars l = l :=
  (c10_parser_invariants c10Input).2.2.1 (by decide)

theorem render_nil : render [] = [] := rfl

theorem render_cons_inl (s : List Char) (cs : List (List Char ⊕ Nat)) :
    render (Sum.inl s :: cs) = s ++ render cs := rfl

theorem render_cons_inr (i : Nat) (cs : List (List Char ⊕ Nat)) :
    render (Sum.inr i :: cs) = fixedToken i ++ render cs := rfl

theorem substTok_cons_inl (i : Nat) (v s : List Char) (cs : List (List Char ⊕ Nat)) :
    substTok i v (Sum.inl s :: cs) = Sum.inl s :: substTok i v cs := rfl

theorem substTok_cons_inr_eq (i : Nat) (v : List Char) (cs : List (List Char ⊕ Nat)) :
    substTok i v (Sum.inr i :: cs) = Sum.inl v :: substTok i v cs := by
  show (if i = i then Sum.inl v else Sum.inr i) :: substTok i v cs = _
  rw [if_pos rfl]

theorem substTok_cons_inr_ne {i j : Nat} (hji : j ≠ i) (v : List Char)
    (cs : List (List Char ⊕ Nat)) :
    substTok i v (Sum.inr j :: cs) = Sum.inr j :: substTok i v cs := by
  show (if j = i then Sum.inl v else Sum.inr j) :: substTok i v cs = _
  rw [if_neg hji]

theorem renderWith_cons_inl (phs : List (List Char × List Char)) (s : List Char)
    (cs : List (List Char ⊕ Nat)) :
    renderWith phs (Sum.inl s :: cs) = s ++ renderWith phs cs := rfl

theorem renderWith_cons_inr (phs : List (List Char × List Char)) (i : Nat)
    (cs : List (List Char ⊕ Nat)) :
    renderWith phs (Sum.inr i :: cs) = lookupTok phs i ++ renderWith phs cs := rfl

theorem segCleanB_spec {cs : List (List Char ⊕ Nat)} (h : segCleanB cs = true) :
    SegClean cs := by
  intro s hs
  have h2 : decide ('_' ∉ s) = true := List.all_eq_true.mp h (Sum.inl s) hs
  exact of_decide_eq_true h2

theorem fixedToken_eq (i : Nat) :
    fixedToken i =
      '_' :: '_' :: 'F' :: 'I' :: 'X' :: 'E' :: 'D' :: '_' ::
        (natDigits i ++ ['_', '_']) := rfl

theorem digits_sep :
    ∀ (a b u v : List Char), (∀ c ∈ a, c.isDigit = true) →
      (∀ c ∈ b, c.isDigit = true) → a ++ '_' :: u = b ++ '_' :: v → a = b := by
  intro a
  induction a with
  | nil =>
    intro b u v _ hb he
    cases b with
    | nil => rfl
    | cons d b2 =>
      simp only [List.nil_append, List.cons_append, List.cons.injEq] at he
      exact absurd he.1.symm (digit_ne_underscore (hb d (List.mem_cons_self d b2)))
  | cons c a2 ih =>
    intro b u v ha hb he
    cases b with
    | nil =>
      simp only [List.cons_append, List.nil_append, List.cons.injEq] at he
      exact absurd he.1 (digit_ne_underscore (ha c (List.mem_cons_self c a2)))
    | cons d b2 =>
      simp only [List.cons_append, List.cons.injEq] at he
      rw [he.1, ih b2 u v (fun x hx => ha x (List.mem_cons_of_mem c hx))
        (fun x hx => hb x (List.mem_cons_of_mem d hx)) he.2]

theorem tok_not_pre_tok {i j : Nat} (hij : i ≠ j) (Y : List Char) :
    ¬ fixedToken i <+: fixedToken j ++ Y := by
  intro h
  obtain ⟨Z, hZ⟩ := h
  rw [fixedToken_eq i, fixedToken_eq j] at hZ
  simp only [List.cons_append, List.cons.injEq, true_and] at hZ
  rw [List.append_assoc, List.append_assoc] at hZ
  exact hij (natDigits_inj (digits_sep _ _ _ _
    (fun c hc => natDigits_digits hc) (fun c hc => natDigits_digits hc) hZ))

theorem replaceAll_skip_seg (i : Nat) (v : List Char) :
    ∀ (s t : List Char), '_' ∉ s →
      replaceAll (fixedToken i) v (s ++ t) = s ++ replaceAll (fixedToken i) v t := by
  intro s
  induction s with
  | nil => intro t _; rfl
  | cons c s2 ih =>
    intro t hs
    have hnm : ¬ (fixedToken i ≠ [] ∧ fixedToken i <+: (c :: (s2 ++ t))) := by
      rintro ⟨-, hcon⟩
      obtain ⟨Z, hZ⟩ := hcon
      rw [fixedToken_eq i] at hZ
      simp only [List.cons_append] at hZ
      injection hZ with h1 _
      exact hs (List.mem_cons.mpr (Or.inl h1))
    rw [List.cons_append, replaceAll_cons_neg v hnm,
      ih t (fun hm => hs (List.mem_cons_of_mem c hm)), List.cons_append]

theorem replaceAll_tok_eq (i : Nat) (v X : List Char) :
    replaceAll (fixedToken i) v (fixedToken i ++ X) =
      v ++ replaceAll (fixedToken i) v X := by
  obtain ⟨tk, htk⟩ := fixedToken_head i
  have hform : fixedToken i ++ X = '_' :: (tk ++ X) := by rw [htk]; rfl
  have hpre : fixedToken i <+: '_' :: (tk ++ X) := by
    rw [← hform]; exact List.prefix_append _ X
  rw [hform, replaceAll_cons_pos v (fixedToken_ne_nil i) hpre]
  congr 1
  have hdrop : ('_' :: (tk ++ X)).drop (fixedToken i).length = X := by
    rw [← hform, List.drop_left]
  rw [hdrop]

theorem replaceAll_tok_skip_char {i : Nat} (v : List Char) {c : Char} (hc : c ≠ '_')
    (w : List Char) :
    replaceAll (fixedToken i) v (c :: w) = c :: replaceAll (fixedToken i) v w := by
  apply replaceAll_cons_neg
  rintro ⟨-, hcon⟩
  obtain ⟨Z, hZ⟩ := hcon
  rw [fixedToken_eq i] at hZ
  simp only [List.cons_append] at hZ
  injection hZ with h1 _
  exact hc h1.symm

theorem no_us_pattern_seg (b : List Char) :
    ∀ (s Y : List Char), '_' ∉ s →
      (∀ a, '_' ∉ a → ¬ (a ++ '_' :: b) <+: Y) →
      ∀ a, '_' ∉ a → ¬ (a ++ '_' :: b) <+: s ++ Y := by
  intro s
  induction s with
  | nil => intro Y _ hY a ha; exact hY a ha
  | cons c s2 ih =>
    intro Y hs hY a ha h
    cases a with
    | nil =>
      obtain ⟨Z, hZ⟩ := h
      simp only [List.nil_append, List.cons_append] at hZ
      injection hZ with h1 _
      exact hs (List.mem_cons.mpr (Or.inl h1))
    | cons d a2 =>
      obtain ⟨Z, hZ⟩ := h
      simp only [List.cons_append] at hZ
      injection hZ with h1 h2
      exact ih Y (fun hm => hs (List.mem_cons_of_mem c hm)) hY a2
        (fun hm => ha (List.mem_cons_of_mem d hm)) ⟨Z, h2⟩

theorem no_us_pattern_render :
    ∀ (cs : List (List Char ⊕ Nat)), SegClean cs →
      ∀ (a b : List Char), '_' ∉ a → (∀ c, b.head? = some c → c ≠ '_') → b ≠ [] →
        ¬ (a ++ '_' :: b) <+: render cs := by
  intro cs
  induction cs with
  | nil =>
    intro _ a b _ _ _ h
    have hn := List.prefix_nil.mp h
    exact absurd hn (by simp)
  | cons ch cs2 ih =>
    intro hcl a b ha hb hbne
    have hcl2 : SegClean cs2 := fun x hx => hcl x (List.mem_cons_of_mem _ hx)
    cases ch with
    | inl s =>
      have hs : '_' ∉ s := hcl s (List.mem_cons_self _ _)
      exact no_us_pattern_seg b s (render cs2) hs
        (fun a2 ha2 => ih hcl2 a2 b ha2 hb hbne) a ha
    | inr j =>
      intro h
      cases a with
      | nil =>
        obtain ⟨Z, hZ⟩ := h
        rw [List.nil_append, render_cons_inr, fixedToken_eq j] at hZ
        simp only [List.cons_append] at hZ
        injection hZ with _ h2
        cases b with
        | nil => exact hbne rfl
        | cons e b2 =>
          rw [List.cons_append] at h2
          injection h2 with h3 _
          exact hb e rfl h3
      | cons d a2 =>
        obtain ⟨Z, hZ⟩ := h
        rw [render_cons_inr, fixedToken_eq j] at hZ
        simp only [List.cons_append] at hZ
        injection hZ with h1 _
        exact ha (List.mem_cons.mpr (Or.inl h1.symm))

theorem replaceAll_skip_other_tok {i j : Nat} (hij : i ≠ j) (v : List Char)
    (cs : List (List Char ⊕ Nat)) (hcs : SegClean cs) :
    replaceAll (fixedToken i) v (fixedToken j ++ render cs) =
      fixedToken j ++ replaceAll (fixedToken i) v (render cs) := by
  have hshape : fixedToken j ++ render cs =
      '_' :: '_' :: 'F' :: 'I' :: 'X' :: 'E' :: 'D' :: '_' ::
        (natDigits j ++ '_' :: '_' :: render cs) := by
    rw [fixedToken_eq j]
    simp
  have hdig : '_' ∉ natDigits j :=
    fun hm => digit_ne_underscore (natDigits_digits hm) rfl
  have hA : ¬ (fixedToken i ≠ [] ∧ fixedToken i <+:
      ('_' :: '_' :: 'F' :: 'I' :: 'X' :: 'E' :: 'D' :: '_' ::
        (natDigits j ++ '_' :: '_' :: render cs))) := by
    rintro ⟨-, hcon⟩
    rw [← hshape] at hcon
    exact tok_not_pre_tok hij (render cs) hcon
  have hB : ¬ (fixedToken i ≠ [] ∧ fixedToken i <+:
      ('_' :: 'F' :: 'I' :: 'X' :: 'E' :: 'D' :: '_' ::
        (natDigits j ++ '_' :: '_' :: render cs))) := by
    rintro ⟨-, hcon⟩
    obtain ⟨Z, hZ⟩ := hcon
    rw [fixedToken_eq i] at hZ
    simp only [List.cons_append] at hZ
    injection hZ with _ hZ2
    injection hZ2 with h2 _
    exact absurd h2 (by decide)
  have hD : ¬ (fixedToken i ≠ [] ∧ fixedToken i <+:
      ('_' :: (natDigits j ++ '_' :: '_' :: render cs))) := by
    rintro ⟨-, hcon⟩
    obtain ⟨Z, hZ⟩ := hcon
    rw [fixedToken_eq i] at hZ
    simp only [List.cons_append] at hZ
    injection hZ with _ hZ2
    cases hDj : natDigits j with
    | nil => exact absurd hDj (natDigits_ne_nil j)
    | cons e es =>
      rw [hDj, List.cons_append] at hZ2
      injection hZ2 with h2 _
      have he : e.isDigit = true :=
        natDigits_digits (by rw [hDj]; exact List.mem_cons_self e es)
      exact digit_ne_underscore he h2.symm
  have hE : ¬ (fixedToken i ≠ [] ∧ fixedToken i <+:
      ('_' :: '_' :: render cs)) := by
    rintro ⟨-, hcon⟩
    obtain ⟨Z, hZ⟩ := hcon
    rw [fixedToken_eq i] at hZ
    simp only [List.cons_append] at hZ
    injection hZ with _ hZ2
    injection hZ2 with _ hZ3
    refine no_us_pattern_render cs hcs "FIXED".data (natDigits i ++ ['_', '_'])
      (by decide) ?_ (by simp) ⟨Z, ?_⟩
    · intro c hc
      cases hDi : natDigits i with
      | nil => exact absurd hDi (natDigits_ne_nil i)
      | cons e es =>
        rw [hDi, List.cons_append, List.head?_cons] at hc
        injection hc with hce
        have he : e.isDigit = true :=
          natDigits_digits (by rw [hDi]; exact List.mem_cons_self e es)
        exact hce ▸ digit_ne_underscore he
    · exact hZ3
  have hG : ¬ (fixedToken i ≠ [] ∧ fixedToken i <+: ('_' :: render cs)) := by
    rintro ⟨-, hcon⟩
    obtain ⟨Z, hZ⟩ := hcon
    rw [fixedToken_eq i] at hZ
    simp only [List.cons_append] at hZ
    injection hZ with _ hZ2
    refine no_us_pattern_render cs hcs []
      ('F' :: 'I' :: 'X' :: 'E' :: 'D' :: '_' :: (natDigits i ++ ['_', '_']))
      (by simp) ?_ (by simp) ⟨Z, ?_⟩
    · intro c hc
      rw [List.head?_cons] at hc
      injection hc with hce
      exact hce ▸ (by decide : ('F' : Char) ≠ '_')
    · exact hZ2
  rw [hshape,
    replaceAll_cons_neg v hA,
    replaceAll_cons_neg v hB,
    replaceAll_tok_skip_char v (show ('F' : Char) ≠ '_' by decide),
    replaceAll_tok_skip_char v (show ('I' : Char) ≠ '_' by decide),
    replaceAll_tok_skip_char v (show ('X' : Char) ≠ '_' by decide),
    replaceAll_tok_skip_char v (show ('E' : Char) ≠ '_' by decide),
    replaceAll_tok_skip_char v (show ('D' : Char) ≠ '_' by decide),
    replaceAll_cons_neg v hD,
    replaceAll_skip_seg i v (natDigits j) ('_' :: '_' :: render cs) hdig,
    replaceAll_cons_neg v hE,
    replaceAll_cons_neg v hG,
    fixedToken_eq j]
  simp

theorem replaceAll_render (i : Nat) (v : List Char) :
    ∀ cs : List (List Char ⊕ Nat), SegClean cs →
      replaceAll (fixedToken i) v (render cs) = render (substTok i v cs) := by
  intro cs
  induction cs with
  | nil => intro _; rfl
  | cons ch cs2 ih =>
    intro hcl
    have hcl2 : SegClean cs2 := fun x hx => hcl x (List.mem_cons_of_mem _ hx)
    cases ch with
    | inl s =>
      have hs : '_' ∉ s := hcl s (List.mem_cons_self _ _)
      rw [render_cons_inl, substTok_cons_inl, render_cons_inl,
        replaceAll_skip_seg i v s (render cs2) hs, ih hcl2]
    | inr j =>
      by_cases hji : j = i
      · subst hji
        rw [render_cons_inr, substTok_cons_inr_eq, render_cons_inl,
          replaceAll_tok_eq j v (render cs2), ih hcl2]
      · rw [render_cons_inr, substTok_cons_inr_ne hji, render_cons_inr,
          replaceAll_skip_other_tok (fun he => hji he.symm) v cs2 hcl2, ih hcl2]

theorem segClean_substTok {i : Nat} {v : List Char} (hv : '_' ∉ v) :
    ∀ {cs : List (List Char ⊕ Nat)}, SegClean cs → SegClean (substTok i v cs) := by
  intro cs
  induction cs with
  | nil => intro _ s hs; exact absurd hs (by simp [substTok])
  | cons ch cs2 ih =>
    intro hcl
    have hcl2 : SegClean cs2 := fun x hx => hcl x (List.mem_cons_of_mem _ hx)
    cases ch with
    | inl t =>
      rw [substTok_cons_inl]
      intro s hs
      rcases List.mem_cons.mp hs with he | hm
      · injection he with h
        subst h
        exact hcl _ (List.mem_cons_self _ _)
      · exact ih hcl2 s hm
    | inr j =>
      by_cases hji : j = i
      · subst hji
        rw [substTok_cons_inr_eq]
        intro s hs
        rcases List.mem_cons.mp hs with he | hm
        · injection he with h
          subst h
          exact hv
        · exact ih hcl2 s hm
      · rw [substTok_cons_inr_ne hji]
        intro s hs
        rcases List.mem_cons.mp hs with he | hm
        · exact absurd he (by simp)
        · exact ih hcl2 s hm

theorem renderWith_nil_map (cs : List (List Char ⊕ Nat)) :
    renderWith [] cs = render cs := by
  induction cs with
  | nil => rfl
  | cons ch cs2 ih =>
    cases ch with
    | inl s =>
      rw [renderWith_cons_inl, render_cons_inl, ih]
    | inr j =>
      rw [renderWith_cons_inr, render_cons_inr, ih]
      rfl

theorem lookupTok_cons_eq (k v2 : List Char) (rest : List (List Char × List Char))
    (i : Nat) (hk : k = fixedToken i) : lookupTok ((k, v2) :: rest) i = v2 := by
  unfold lookupTok
  rw [List.find?_cons_of_pos _ (by simp [hk])]

theorem lookupTok_cons_ne (k v2 : List Char) (rest : List (List Char × List Char))
    (i : Nat) (hk : k ≠ fixedToken i) :
    lookupTok ((k, v2) :: rest) i = lookupTok rest i := by
  unfold lookupTok
  rw [List.find?_cons_of_neg _ (by simp [hk])]

theorem renderWith_substTok (i : Nat) (v : List Char)
    (rest : List (List Char × List Char)) :
    ∀ cs : List (List Char ⊕ Nat),
      renderWith rest (substTok i v cs) = renderWith ((fixedToken i, v) :: rest) cs := by
  intro cs
  induction cs with
  | nil => rfl
  | cons ch cs2 ih =>
    cases ch with
    | inl s =>
      rw [substTok_cons_inl, renderWith_cons_inl, renderWith_cons_inl, ih]
    | inr j =>
      by_cases hji : j = i
      · subst hji
        rw [substTok_cons_inr_eq, renderWith_cons_inl, renderWith_cons_inr, ih,
          lookupTok_cons_eq _ _ _ _ rfl]
      · rw [substTok_cons_inr_ne hji, renderWith_cons_inr, renderWith_cons_inr, ih,
          lookupTok_cons_ne _ _ _ _ (fun he => hji (fixedToken_inj he).symm)]

theorem postprocess_render :
    ∀ (phs : List (List Char × List Char)) (ixs : List Nat)
      (cs : List (List Char ⊕ Nat)),
      phs.map Prod.fst = ixs.map fixedToken →
      (∀ pr ∈ phs, '_' ∉ pr.2) →
      SegClean cs →
      postprocessFixedWords (render cs) phs = renderWith phs cs := by
  intro phs
  induction phs with
  | nil =>
    intro ixs cs _ _ _
    exact (renderWith_nil_map cs).symm
  | cons pr rest ih =>
    intro ixs cs hmap hval hcl
    obtain ⟨k, v⟩ := pr
    cases ixs with
    | nil => simp at hmap
    | cons i0 ixs2 =>
      simp only [List.map_cons, List.cons.injEq] at hmap
      obtain ⟨hk, hmap2⟩ := hmap
      have hv : '_' ∉ v := hval (k, v) (List.mem_cons_self _ _)
      have hval2 : ∀ q ∈ rest, '_' ∉ q.2 :=
        fun q hq => hval q (List.mem_cons_of_mem _ hq)
      have hstep : postprocessFixedWords (render cs) ((k, v) :: rest) =
          postprocessFixedWords (replaceAll k v (render cs)) rest := rfl
      rw [hstep]
      subst hk
      rw [replaceAll_render i0 v cs hcl,
        ih ixs2 (substTok i0 v cs) hmap2 hval2 (segClean_substTok hv hcl)]
      exact renderWith_substTok i0 v rest cs

theorem lookupTok_of_mem :
    ∀ (phs : List (List Char × List Char)) (pr : List Char × List Char) (i : Nat),
      List.Pairwise (· ≠ ·) (phs.map Prod.fst) →
      pr ∈ phs → pr.1 = fixedToken i →
      lookupTok phs i = pr.2 := by
  intro phs
  induction phs with
  | nil => intro pr i _ hpr _; exact absurd hpr (by simp)
  | cons q rest ih =>
    intro pr i hdist hpr hk
    obtain ⟨k0, v0⟩ := q
    rw [List.map_cons] at hdist
    have h2 := List.pairwise_cons.mp hdist
    rcases List.mem_cons.mp hpr with he | hm
    · subst he
      exact lookupTok_cons_eq k0 v0 rest i hk
    · have hne : k0 ≠ fixedToken i := by
        intro he0
        have hmem : pr.1 ∈ rest.map Prod.fst := List.mem_map_of_mem Prod.fst hm
        exact h2.1 pr.1 hmem (by rw [he0, ← hk])
      rw [lookupTok_cons_ne k0 v0 rest i hne]
      exact ih pr i h2.2 hm hk

theorem lookupTok_infix_renderWith (phs : List (List Char × List Char)) (i : Nat) :
    ∀ cs : List (List Char ⊕ Nat), Sum.inr i ∈ cs →
      lookupTok phs i <:+: renderWith phs cs := by
  intro cs
  induction cs with
  | nil => intro h; exact absurd h (by simp)
  | cons ch cs2 ih =>
    intro hmem
    rcases List.mem_cons.mp hmem with he | hm
    · rw [← he, renderWith_cons_inr]
      exact (List.prefix_append _ _).isInfix
    · have hsub : renderWith phs cs2 <:+: renderWith phs (ch :: cs2) := by
        cases ch with
        | inl s => exact (List.suffix_append _ _).isInfix
        | inr j => exact (List.suffix_append _ _).isInfix
      exact (ih hm).trans hsub

/-- C3 counterexample: already under the *identity* translation (which maps
every placeholder token — indeed the whole protected text — to itself), the
dictionary term `챠콜` of the input does not come back unchanged from the
protect/translate/restore round trip: the restored output is the canonical
dictionary translation `Charcoal`, and the original term occurs nowhere in
it, contradicting the claim that the exact terms are unchanged in the final
output regardless of target language. -/
theorem c3_counterexample :
    "챠콜".data <:+: c3Input ∧
    postprocessFixedWords (preprocessFixedWords c3Input).1
      (preprocessFixedWords c3Input).2 = "Charcoal".data ∧
    ¬ "챠콜".data <:+:
      postprocessFixedWords (preprocessFixedWords c3Input).1
        (preprocessFixedWords c3Input).2 := by decide

/-- C3 (amended): placeholder round trip. For any input text, protect it
with `preprocessFixedWords` and let a token-respecting translation return
an arbitrary interleaving `cs` of rewritten prose segments and the
placeholder tokens (the segments being free of the token marker `_`, as is
every value stored in the placeholder map). Then restoring with
`postprocessFixedWords` replaces exactly the token chunks by their mapped
values — the output is literally `renderWith`, the chunk list with each
mapped token substituted by its map value — and consequently every map
entry whose token survives in `cs` reappears contiguously in the final
output. The reappearing text is the stored map *value*: the original span
for ｟｠-bracket literals, but the canonical target-language dictionary term
for dictionary hits (not the original source-language term, and independent
of the requested target language). -/
theorem c3_amended :
    ∀ (text : List Char) (cs : List (List Char ⊕ Nat)),
      SegClean cs →
      (∀ pr ∈ (preprocessFixedWords text).2, '_' ∉ pr.2) →
      postprocessFixedWords (render cs) (preprocessFixedWords text).2 =
        renderWith (preprocessFixedWords text).2 cs ∧
      ∀ pr ∈ (preprocessFixedWords text).2, ∀ i : Nat, pr.1 = fixedToken i →
        Sum.inr i ∈ cs →
        pr.2 <:+: postprocessFixedWords (render cs) (preprocessFixedWords text).2 := by
  intro text cs hseg hval
  obtain ⟨ixs, hmap, _⟩ := preprocess_keys text
  have hmain := postprocess_render (preprocessFixedWords text).2 ixs cs hmap hval hseg
  refine ⟨hmain, ?_⟩
  intro pr hpr i hki hic
  rw [hmain, ← lookupTok_of_mem (preprocessFixedWords text).2 pr i
    (preprocess_keys_distinct text) hpr hki]
  exact lookupTok_infix_renderWith _ i cs hic

/-- Witness for `c3_amended`: on `챠콜 ｟Logo-X｠ 검정` with a concrete
token-respecting translation, restoring yields exactly the substituted
chunk rendering, and the bracket-literal span `｟Logo-X｠` reappears
verbatim in the final output. -/
theorem c3_amended_witness :
    postprocessFixedWords (render c3WitnessChunks)
        (preprocessFixedWords c3WitnessInput).2 =
      renderWith (preprocessFixedWords c3WitnessInput).2 c3WitnessChunks ∧
    "｟Logo-X｠".data <:+:
      postprocessFixedWords (render c3WitnessChunks)
        (preprocessFixedWords c3WitnessInput).2 :=
  ⟨(c3_amended c3WitnessInput c3WitnessChunks
      (segCleanB_spec (by decide)) (by decide)).1,
    (c3_amended c3WitnessInput c3WitnessChunks
      (segCleanB_spec (by decide)) (by decide)).2
      (fixedToken 2, "｟Logo-X｠".data) (by decide) 2 rfl
      (by simp [c3WitnessChunks])⟩
